import Mathlib

/-!
Shallow embedding of the GreptimeDB flow-engine core (accumulators,
diff-tracking map, scheduled state machines, client retry classification,
and the error-info wire header), together with proofs of the specified
properties.

Machine integers (`i64` counts, `i128` accumulators, timestamps) are
modelled as `ℤ`; none of the verified properties exercises fixed-width
overflow.  Finite `f64` arithmetic is modelled exactly over `ℚ`; every
property proved about floats either compares two identical computations or
is evaluated at inputs on which `f64` arithmetic is exact.
-/

set_option maxHeartbeats 1000000

deriving instance DecidableEq for Except

namespace Greptime

/-- `type Diff = i64`: a signed count. -/
abbrev Diff := ℤ

/-- `type Timestamp = i64`: milliseconds since the epoch. -/
abbrev Timestamp := ℤ

/-- Model of `datatypes::value::OrderedF64` (an `f64` with a total order).
Finite values are exact rationals; NaN and the infinities are tracked
separately, as the accumulator code does. -/
inductive F64 where
  | finite (q : ℚ)
  | posInf
  | negInf
  | nan
deriving DecidableEq

namespace F64

def isNan : F64 → Bool
  | .nan => true
  | _ => false

def isInfinite : F64 → Bool
  | .posInf => true
  | .negInf => true
  | _ => false

def isSignPositive : F64 → Bool
  | .posInf => true
  | .negInf => false
  | .finite q => 0 ≤ q
  | .nan => true

/-- IEEE-754 addition on the modelled values (exact on finite inputs). -/
def add : F64 → F64 → F64
  | .nan, _ => .nan
  | _, .nan => .nan
  | .posInf, .negInf => .nan
  | .negInf, .posInf => .nan
  | .posInf, _ => .posInf
  | _, .posInf => .posInf
  | .negInf, _ => .negInf
  | _, .negInf => .negInf
  | .finite a, .finite b => .finite (a + b)

/-- IEEE-754 multiplication on the modelled values (exact on finite inputs;
overflow of finite products to infinity is not modelled). -/
def mul : F64 → F64 → F64
  | .nan, _ => .nan
  | _, .nan => .nan
  | .posInf, .finite b => if b = 0 then .nan else if 0 < b then .posInf else .negInf
  | .negInf, .finite b => if b = 0 then .nan else if 0 < b then .negInf else .posInf
  | .finite a, .posInf => if a = 0 then .nan else if 0 < a then .posInf else .negInf
  | .finite a, .negInf => if a = 0 then .nan else if 0 < a then .negInf else .posInf
  | .posInf, .posInf => .posInf
  | .posInf, .negInf => .negInf
  | .negInf, .posInf => .negInf
  | .negInf, .negInf => .posInf
  | .finite a, .finite b => .finite (a * b)

/-- `OrderedF64::from(d as f64)` for an `i64` `d` (exact for small counts). -/
def ofInt (d : ℤ) : F64 := .finite (d : ℚ)

/-- Tag for the total order `-inf < finite < +inf < NaN` used by
`OrderedFloat`. -/
def tag : F64 → ℤ
  | .negInf => -1
  | .finite _ => 0
  | .posInf => 1
  | .nan => 2

def pay : F64 → ℚ
  | .finite q => q
  | _ => 0

theorem tag_pay_inj {x y : F64} (ht : x.tag = y.tag) (hp : x.pay = y.pay) :
    x = y := by
  cases x <;> cases y <;> simp_all [tag, pay]

end F64

/-- The subset of `ConcreteDataType` used by the flow code. -/
inductive ConcreteDataType where
  | null
  | boolean
  | int16
  | int32
  | int64
  | uint16
  | uint32
  | uint64
  | float32
  | float64
  | decimal128
  | datetime
deriving DecidableEq

/-- Model of `common_decimal::Decimal128`: a 128-bit integer together with a
precision and a scale. -/
structure Decimal128 where
  val : ℤ
  precision : ℕ
  scale : ℕ
deriving DecidableEq

/-- Modelled from the spec: the subset of `datatypes::value::Value`
("typed scalar values: bool, signed/unsigned integers to 64 bits, floats
with total ordering, 128-bit decimal, date/time") that the embedded code
touches. -/
inductive Value where
  | null
  | boolean (b : Bool)
  | int16 (x : ℤ)
  | int32 (x : ℤ)
  | int64 (x : ℤ)
  | uint16 (x : ℕ)
  | uint32 (x : ℕ)
  | uint64 (x : ℕ)
  | float32 (x : F64)
  | float64 (x : F64)
  | decimal128 (d : Decimal128)
  | datetime (ms : ℤ)
deriving DecidableEq

namespace Value

/-- `Value::data_type()`. -/
def dataType : Value → ConcreteDataType
  | .null => .null
  | .boolean _ => .boolean
  | .int16 _ => .int16
  | .int32 _ => .int32
  | .int64 _ => .int64
  | .uint16 _ => .uint16
  | .uint32 _ => .uint32
  | .uint64 _ => .uint64
  | .float32 _ => .float32
  | .float64 _ => .float64
  | .decimal128 _ => .decimal128
  | .datetime _ => .datetime

/-- Sort key realising the total `Ord` on values: constructor rank first,
then the payload (floats by the `OrderedFloat` order). -/
def toKey : Value → ℕ × ℤ × ℤ × ℚ
  | .null => (0, 0, 0, 0)
  | .boolean b => (1, bif b then 1 else 0, 0, 0)
  | .int16 x => (2, x, 0, 0)
  | .int32 x => (3, x, 0, 0)
  | .int64 x => (4, x, 0, 0)
  | .uint16 x => (5, x, 0, 0)
  | .uint32 x => (6, x, 0, 0)
  | .uint64 x => (7, x, 0, 0)
  | .float32 f => (8, f.tag, 0, f.pay)
  | .float64 f => (9, f.tag, 0, f.pay)
  | .decimal128 d => (10, d.val, d.precision, d.scale)
  | .datetime x => (11, x, 0, 0)

/-- Partial inverse of `toKey`, used to prove it injective. -/
def ofTagPay (t : ℤ) (q : ℚ) : F64 :=
  if t = -1 then .negInf else if t = 0 then .finite q else if t = 1 then .posInf else .nan

def ofKey : ℕ × ℤ × ℤ × ℚ → Value
  | (0, _, _, _) => .null
  | (1, z, _, _) => .boolean (z = 1)
  | (2, z, _, _) => .int16 z
  | (3, z, _, _) => .int32 z
  | (4, z, _, _) => .int64 z
  | (5, z, _, _) => .uint16 z.toNat
  | (6, z, _, _) => .uint32 z.toNat
  | (7, z, _, _) => .uint64 z.toNat
  | (8, t, _, q) => .float32 (ofTagPay t q)
  | (9, t, _, q) => .float64 (ofTagPay t q)
  | (10, v, p, s) => .decimal128 ⟨v, p.toNat, s.num.toNat⟩
  | (_, z, _, _) => .datetime z

theorem ofKey_toKey : ∀ v : Value, ofKey (toKey v) = v := by
  intro v
  cases v with
  | boolean b => cases b <;> rfl
  | float32 f => cases f <;> rfl
  | float64 f => cases f <;> rfl
  | decimal128 d => cases d; simp [toKey, ofKey]
  | _ => rfl

theorem toKey_injective : Function.Injective toKey :=
  Function.LeftInverse.injective ofKey_toKey

/-- The lexicographic form of `toKey`, giving the total order on values. -/
def lexKey (v : Value) : ℕ ×ₗ (ℤ ×ₗ (ℤ ×ₗ ℚ)) :=
  toLex ((toKey v).1, toLex ((toKey v).2.1, toLex ((toKey v).2.2.1, (toKey v).2.2.2)))

theorem lexKey_injective : Function.Injective lexKey := by
  intro a b h
  apply toKey_injective
  simp only [lexKey, toLex_inj, Prod.mk.injEq] at h
  exact Prod.ext_iff.mpr ⟨h.1, Prod.ext_iff.mpr ⟨h.2.1,
    Prod.ext_iff.mpr ⟨h.2.2.1, h.2.2.2⟩⟩⟩

instance : LinearOrder Value := LinearOrder.lift' lexKey lexKey_injective

end Value

/-- `repr::Row`: an ordered sequence of values, equal by content. -/
structure Row where
  inner : List Value
deriving DecidableEq

theorem Row.inner_injective : Function.Injective Row.inner := by
  intro a b h
  cases a; cases b; simpa using h

/-- Rows are ordered lexicographically over the value order, as `Vec<Value>`
is in the source. -/
instance : LinearOrder Row := LinearOrder.lift' Row.inner Row.inner_injective

/-- The aggregate functions routed to the accumulators in `accum.rs`.
Modelled from the spec ("sum/count/min/max/any/all"); the min/max family is
represented by the variants the sampled code and its tests exercise. -/
inductive AggregateFunc where
  | any
  | all
  | maxBool
  | minBool
  | sumInt16
  | sumInt32
  | sumInt64
  | sumUInt16
  | sumUInt32
  | sumUInt64
  | sumFloat32
  | sumFloat64
  | count
  | maxInt16
  | maxInt32
  | maxInt64
  | maxUInt16
  | maxUInt32
  | maxUInt64
  | maxFloat32
  | maxFloat64
  | maxDateTime
  | minInt16
  | minInt32
  | minInt64
  | minUInt16
  | minUInt32
  | minUInt64
  | minFloat32
  | minFloat64
  | minDateTime
deriving DecidableEq

namespace AggregateFunc

/-- `AggregateFunc::is_max`. -/
def isMax : AggregateFunc → Bool
  | .maxBool | .maxInt16 | .maxInt32 | .maxInt64
  | .maxUInt16 | .maxUInt32 | .maxUInt64
  | .maxFloat32 | .maxFloat64 | .maxDateTime => true
  | _ => false

/-- `AggregateFunc::is_min`. -/
def isMin : AggregateFunc → Bool
  | .minBool | .minInt16 | .minInt32 | .minInt64
  | .minUInt16 | .minUInt32 | .minUInt64
  | .minFloat32 | .minFloat64 | .minDateTime => true
  | _ => false

/-- The `{:?}` (Debug) rendering used inside formatted error reasons. -/
def debugStr : AggregateFunc → String
  | .any => "Any"
  | .all => "All"
  | .maxBool => "MaxBool"
  | .minBool => "MinBool"
  | .sumInt16 => "SumInt16"
  | .sumInt32 => "SumInt32"
  | .sumInt64 => "SumInt64"
  | .sumUInt16 => "SumUInt16"
  | .sumUInt32 => "SumUInt32"
  | .sumUInt64 => "SumUInt64"
  | .sumFloat32 => "SumFloat32"
  | .sumFloat64 => "SumFloat64"
  | .count => "Count"
  | .maxInt16 => "MaxInt16"
  | .maxInt32 => "MaxInt32"
  | .maxInt64 => "MaxInt64"
  | .maxUInt16 => "MaxUInt16"
  | .maxUInt32 => "MaxUInt32"
  | .maxUInt64 => "MaxUInt64"
  | .maxFloat32 => "MaxFloat32"
  | .maxFloat64 => "MaxFloat64"
  | .maxDateTime => "MaxDateTime"
  | .minInt16 => "MinInt16"
  | .minInt32 => "MinInt32"
  | .minInt64 => "MinInt64"
  | .minUInt16 => "MinUInt16"
  | .minUInt32 => "MinUInt32"
  | .minUInt64 => "MinUInt64"
  | .minFloat32 => "MinFloat32"
  | .minFloat64 => "MinFloat64"
  | .minDateTime => "MinDateTime"

end AggregateFunc

/-- The `EvalError` variants raised by the embedded code
(`flow/src/expr/error.rs`; the enum itself is modelled from the spec's
error-kind table). `lateDataDiscarded` carries `late_by` in milliseconds. -/
inductive EvalError where
  | internalError (reason : String)
  | typeMismatch (expected actual : ConcreteDataType)
  | tryFromValue (msg : String)
  | lateDataDiscarded (lateByMs : ℕ)
  | invalidArgument (reason : String)
deriving DecidableEq

/-- `err_try_from_val`: wraps a conversion failure message. -/
def err_try_from_val (reason : String) : EvalError := .tryFromValue reason

/-- Modelled from the spec: `impl TryFrom<Value> for i64` as used to read
`Diff` counts back out of a serialized accumulator state. -/
def diffTryFromValue : Value → Except EvalError Diff
  | .int64 x => .ok x
  | _ => .error (err_try_from_val "value is not an i64")

/-- Modelled from the spec: `impl TryFrom<Value> for OrderedF64` as used to
read the float accumulator back out of its serialized state. -/
def f64TryFromValue : Value → Except EvalError F64
  | .float64 x => .ok x
  | _ => .error (err_try_from_val "value is not an f64")

/-- Modelled from the spec: `impl TryFrom<Value> for Decimal128` as used to
read the integer accumulator back out of its serialized state. -/
def decimal128TryFromValue : Value → Except EvalError Decimal128
  | .decimal128 d => .ok d
  | _ => .error (err_try_from_val "value is not a decimal")

/-- Semantics of calling a fallible `&mut self` method: the new state is kept
only on success.  Every embedded method places all of its error returns
before its first field mutation, so on the error path the receiver is
unchanged, exactly as in the source. -/
def mutCall {σ ε : Type} (f : σ → Except ε σ) (s : σ) : σ × Option ε :=
  match f s with
  | .ok s' => (s', none)
  | .error e => (s, some e)

/-- A generic `Accumulator::update_batch`: fold `update` over the pairs,
stopping at the first error. -/
def updateBatchWith {σ : Type}
    (upd : σ → Value → Diff → Except EvalError σ)
    (s : σ) (l : List (Value × Diff)) : Except EvalError σ :=
  l.foldlM (fun a vd => upd a vd.1 vd.2) s

/-- The `Bool` accumulator of `accum.rs` (named `BoolAcc` here because `Bool`
is taken in Lean): signed counts of observed `true`s and `false`s. -/
structure BoolAcc where
  trues : Diff
  falses : Diff
deriving DecidableEq

namespace BoolAcc

/-- `impl TryFrom<Vec<Value>> for Bool`. -/
def tryFrom (state : List Value) : Except EvalError BoolAcc :=
  match state with
  | [t, f] => do
      let trues ← diffTryFromValue t
      let falses ← diffTryFromValue f
      pure { trues := trues, falses := falses }
  | _ => .error (.internalError "Bool Accumulator state should have 2 values")

def intoState (self : BoolAcc) : List Value :=
  [.int64 self.trues, .int64 self.falses]

def update (self : BoolAcc) (aggr_fn : AggregateFunc) (value : Value)
    (diff : Diff) : Except EvalError BoolAcc :=
  if aggr_fn = .any ∨ aggr_fn = .all ∨ aggr_fn = .maxBool ∨ aggr_fn = .minBool then
    match value with
    | .boolean true => .ok { self with trues := self.trues + diff }
    | .boolean false => .ok { self with falses := self.falses + diff }
    | x => .error (.typeMismatch .boolean x.dataType)
  else
    .error (.internalError
      ("Bool Accumulator does not support this aggregation function: " ++ aggr_fn.debugStr))

def eval (self : BoolAcc) (aggr_fn : AggregateFunc) : Except EvalError Value :=
  match aggr_fn with
  | .any => .ok (.boolean (0 < self.trues))
  | .all => .ok (.boolean (self.falses = 0))
  | .maxBool => .ok (.boolean (0 < self.trues))
  | .minBool => .ok (.boolean (self.falses = 0))
  | f => .error (.internalError
      ("Bool Accumulator does not support this aggregation function: " ++ f.debugStr))

end BoolAcc

/-- The `SimpleNumber` accumulator: an `i128` running sum and a count of
non-NULL values. -/
structure SimpleNumber where
  accum : ℤ
  non_nulls : Diff
deriving DecidableEq

namespace SimpleNumber

/-- `impl TryFrom<Vec<Value>> for SimpleNumber`. -/
def tryFrom (state : List Value) : Except EvalError SimpleNumber :=
  match state with
  | [a, n] => do
      let accum ← decimal128TryFromValue a
      let non_nulls ← diffTryFromValue n
      pure { accum := accum.val, non_nulls := non_nulls }
  | _ => .error (.internalError "Number Accumulator state should have 2 values")

def intoState (self : SimpleNumber) : List Value :=
  [.decimal128 ⟨self.accum, 38, 0⟩, .int64 self.non_nulls]

/-- The expected input type reported in the type-mismatch error; only
reached when `aggr_fn` is one of the integer sums. -/
def expectedSumType : AggregateFunc → ConcreteDataType
  | .sumInt16 => .int16
  | .sumInt32 => .int32
  | .sumInt64 => .int64
  | .sumUInt16 => .uint16
  | .sumUInt32 => .uint32
  | .sumUInt64 => .uint64
  | _ => .null

def update (self : SimpleNumber) (aggr_fn : AggregateFunc) (value : Value)
    (diff : Diff) : Except EvalError SimpleNumber :=
  if aggr_fn = .sumInt16 ∨ aggr_fn = .sumInt32 ∨ aggr_fn = .sumInt64 ∨
      aggr_fn = .sumUInt16 ∨ aggr_fn = .sumUInt32 ∨ aggr_fn = .sumUInt64 then
    match value with
    | .int16 x => .ok { accum := self.accum + x * diff, non_nulls := self.non_nulls + diff }
    | .int32 x => .ok { accum := self.accum + x * diff, non_nulls := self.non_nulls + diff }
    | .int64 x => .ok { accum := self.accum + x * diff, non_nulls := self.non_nulls + diff }
    | .uint16 x => .ok { accum := self.accum + x * diff, non_nulls := self.non_nulls + diff }
    | .uint32 x => .ok { accum := self.accum + x * diff, non_nulls := self.non_nulls + diff }
    | .uint64 x => .ok { accum := self.accum + x * diff, non_nulls := self.non_nulls + diff }
    | v => .error (.typeMismatch (expectedSumType aggr_fn) v.dataType)
  else
    .error (.internalError
      ("SimpleNumber Accumulator does not support this aggregation function: "
        ++ aggr_fn.debugStr))

/-- The wrapping `i128 as i64` cast. -/
def as_i64 (x : ℤ) : ℤ := (x + 2 ^ 63) % 2 ^ 64 - 2 ^ 63

/-- The wrapping `i128 as u64` cast. -/
def as_u64 (x : ℤ) : ℕ := (x % 2 ^ 64).toNat

def eval (self : SimpleNumber) (aggr_fn : AggregateFunc) : Except EvalError Value :=
  match aggr_fn with
  | .sumInt16 | .sumInt32 | .sumInt64 => .ok (.int64 (as_i64 self.accum))
  | .sumUInt16 | .sumUInt32 | .sumUInt64 => .ok (.uint64 (as_u64 self.accum))
  | f => .error (.internalError
      ("SimpleNumber Accumulator does not support this aggregation function: "
        ++ f.debugStr))

end SimpleNumber

/-- The `Float` accumulator: an exact sum of the finite inputs plus counts
of `+inf`, `-inf`, `NaN` and non-NULL values. -/
structure Float where
  accum : F64
  pos_infs : Diff
  neg_infs : Diff
  nans : Diff
  non_nulls : Diff
deriving DecidableEq

namespace Float

/-- `impl TryFrom<Vec<Value>> for Float`.  When the reconstructed state has
`non_nulls == 0`, `accum` is forced to `0.0`. -/
def tryFrom (state : List Value) : Except EvalError Float :=
  match state with
  | [a, p, n, na, nn] => do
      let accum ← f64TryFromValue a
      let pos_infs ← diffTryFromValue p
      let neg_infs ← diffTryFromValue n
      let nans ← diffTryFromValue na
      let non_nulls ← diffTryFromValue nn
      let ret : Float :=
        { accum := accum, pos_infs := pos_infs, neg_infs := neg_infs,
          nans := nans, non_nulls := non_nulls }
      pure (if ret.non_nulls = 0 then { ret with accum := .finite 0 } else ret)
  | _ => .error (.internalError "Float Accumulator state should have 5 values")

def intoState (self : Float) : List Value :=
  [.float64 self.accum, .int64 self.pos_infs, .int64 self.neg_infs,
   .int64 self.nans, .int64 self.non_nulls]

def expectedFloatType : AggregateFunc → ConcreteDataType
  | .sumFloat32 => .float32
  | .sumFloat64 => .float64
  | _ => .null

def update (self : Float) (aggr_fn : AggregateFunc) (value : Value)
    (diff : Diff) : Except EvalError Float :=
  if aggr_fn = .sumFloat32 ∨ aggr_fn = .sumFloat64 then
    match value with
    | .float32 x | .float64 x =>
      let self :=
        if x.isNan then { self with nans := self.nans + diff }
        else if x.isInfinite then
          if x.isSignPositive then { self with pos_infs := self.pos_infs + diff }
          else { self with neg_infs := self.neg_infs + diff }
        else { self with accum := self.accum.add (x.mul (F64.ofInt diff)) }
      .ok { self with non_nulls := self.non_nulls + diff }
    | v => .error (.typeMismatch (expectedFloatType aggr_fn) v.dataType)
  else
    .error (.internalError
      ("Float Accumulator does not support this aggregation function: "
        ++ aggr_fn.debugStr))

/-- `Float::eval`.  The narrowing `f64 → f32` cast of `SumFloat32` is
modelled as exact; every property proved here compares that cast applied to
equal arguments, so the rounding behaviour is irrelevant. -/
def eval (self : Float) (aggr_fn : AggregateFunc) : Except EvalError Value :=
  match aggr_fn with
  | .sumFloat32 => .ok (.float32 self.accum)
  | .sumFloat64 => .ok (.float64 self.accum)
  | f => .error (.internalError
      ("Float Accumulator does not support this aggregation function: "
        ++ f.debugStr))

end Float

/-- The `OrdValue` accumulator: a single optional extremal value plus a
count of non-NULL values. -/
structure OrdValue where
  val : Option Value
  non_nulls : Diff
deriving DecidableEq

namespace OrdValue

/-- `impl TryFrom<Vec<Value>> for OrdValue`. -/
def tryFrom (state : List Value) : Except EvalError OrdValue :=
  match state with
  | [v, n] => do
      let non_nulls ← diffTryFromValue n
      pure { val := some v, non_nulls := non_nulls }
  | _ => .error (.internalError "OrdValue Accumulator state should have 2 values")

def intoState (self : OrdValue) : List Value :=
  [self.val.getD .null, .int64 self.non_nulls]

def update (self : OrdValue) (aggr_fn : AggregateFunc) (value : Value)
    (diff : Diff) : Except EvalError OrdValue :=
  if aggr_fn.isMax || aggr_fn.isMin || aggr_fn = .count then
    match self.val with
    | some v =>
      if v.dataType ≠ value.dataType then
        .error (.typeMismatch v.dataType value.dataType)
      else updateChecked self aggr_fn value diff
    | none => updateChecked self aggr_fn value diff
  else
    .error (.internalError
      ("OrdValue Accumulator does not support this aggregation function: "
        ++ aggr_fn.debugStr))
where
  /-- The tail of `OrdValue::update` after the type check. -/
  updateChecked (self : OrdValue) (aggr_fn : AggregateFunc) (value : Value)
      (diff : Diff) : Except EvalError OrdValue :=
    if diff ≤ 0 ∧ (aggr_fn.isMax || aggr_fn.isMin) then
      .error (.internalError
        "OrdValue Accumulator does not support non-monotonic input for min/max aggregation")
    else
      let val :=
        if aggr_fn.isMax then some ((self.val.map (fun v => max v value)).getD value)
        else if aggr_fn.isMin then some ((self.val.map (fun v => min v value)).getD value)
        else self.val
      .ok { val := val, non_nulls := self.non_nulls + diff }

def eval (self : OrdValue) (_aggr_fn : AggregateFunc) : Except EvalError Value :=
  .ok (self.val.getD .null)

end OrdValue

/-- The `Accum` enum: tagged dispatch over the four accumulator variants. -/
inductive Accum where
  | bool (b : BoolAcc)
  | simpleNumber (s : SimpleNumber)
  | float (f : Float)
  | ordValue (o : OrdValue)
deriving DecidableEq

namespace Accum

def intoState : Accum → List Value
  | .bool b => b.intoState
  | .simpleNumber s => s.intoState
  | .float f => f.intoState
  | .ordValue o => o.intoState

def update (self : Accum) (aggr_fn : AggregateFunc) (value : Value)
    (diff : Diff) : Except EvalError Accum :=
  match self with
  | .bool b => (b.update aggr_fn value diff).map .bool
  | .simpleNumber s => (s.update aggr_fn value diff).map .simpleNumber
  | .float f => (f.update aggr_fn value diff).map .float
  | .ordValue o => (o.update aggr_fn value diff).map .ordValue

def eval (self : Accum) (aggr_fn : AggregateFunc) : Except EvalError Value :=
  match self with
  | .bool b => b.eval aggr_fn
  | .simpleNumber s => s.eval aggr_fn
  | .float f => f.eval aggr_fn
  | .ordValue o => o.eval aggr_fn

def updateBatch (self : Accum) (aggr_fn : AggregateFunc)
    (value_diffs : List (Value × Diff)) : Except EvalError Accum :=
  updateBatchWith (fun a v d => a.update aggr_fn v d) self value_diffs

/-- `Accum::new_accum`. -/
def new_accum (aggr_fn : AggregateFunc) : Except EvalError Accum :=
  match aggr_fn with
  | .any | .all | .maxBool | .minBool => .ok (.bool { trues := 0, falses := 0 })
  | .sumInt16 | .sumInt32 | .sumInt64 | .sumUInt16 | .sumUInt32 | .sumUInt64 =>
    .ok (.simpleNumber { accum := 0, non_nulls := 0 })
  | .sumFloat32 | .sumFloat64 =>
    .ok (.float { accum := .finite 0, pos_infs := 0, neg_infs := 0, nans := 0, non_nulls := 0 })
  | f =>
    if f.isMax || f.isMin || f = .count then
      .ok (.ordValue { val := none, non_nulls := 0 })
    else
      .error (.internalError
        ("Accumulator does not support this aggregation function: " ++ f.debugStr))

/-- `Accum::try_into_accum`. -/
def try_into_accum (aggr_fn : AggregateFunc) (state : List Value) :
    Except EvalError Accum :=
  match aggr_fn with
  | .any | .all | .maxBool | .minBool => (BoolAcc.tryFrom state).map .bool
  | .sumInt16 | .sumInt32 | .sumInt64 | .sumUInt16 | .sumUInt32 | .sumUInt64 =>
    (SimpleNumber.tryFrom state).map .simpleNumber
  | .sumFloat32 | .sumFloat64 => (Float.tryFrom state).map .float
  | f =>
    if f.isMax || f.isMin || f = .count then
      (OrdValue.tryFrom state).map .ordValue
    else
      .error (.internalError
        ("Accumulator does not support this aggregation function: " ++ f.debugStr))

end Accum

/-! ## Client error taxonomy and retry classification (`client/src/error.rs`) -/

/-- `tonic::Code`: the closed set of gRPC transport status codes. -/
inductive Code where
  | ok
  | cancelled
  | unknown
  | invalidArgument
  | deadlineExceeded
  | notFound
  | alreadyExists
  | permissionDenied
  | resourceExhausted
  | failedPrecondition
  | aborted
  | outOfRange
  | unimplemented
  | internal
  | unavailable
  | dataLoss
  | unauthenticated
deriving DecidableEq

/-- Modelled from the spec: the `StatusCode` enum ("a closed enum including
at least `Success`, `Unknown`, `Internal`, `Unexpected`, `InvalidArguments`,
`Cancelled`, `DeadlineExceeded`, `Unavailable`"). -/
inductive StatusCode where
  | success
  | unknown
  | internal
  | unexpected
  | invalidArguments
  | cancelled
  | deadlineExceeded
  | unavailable
deriving DecidableEq

/-- `snafu::Location`: a source position, diagnostic only. -/
structure Location where
  file : String
  line : ℕ
  column : ℕ
deriving DecidableEq

/-- An opaque boxed source error; the embedded code only ever consults its
status code. -/
structure BoxedError where
  statusCode : StatusCode
deriving DecidableEq

/-- The client `Error` enum of `client/src/error.rs` (payloads of external
source-error types are represented by `BoxedError`). -/
inductive Error where
  | illegalFlightMessages (reason : String) (location : Location)
  | flightGet (addr : String) (tonic_code : Code) (source : BoxedError)
  | convertFlightData (location : Location) (source : BoxedError)
  | illegalGrpcClientState (err_msg : String) (location : Location)
  | missingField (field : String) (location : Location)
  | createChannel (addr : String) (location : Location) (source : BoxedError)
  | createTlsChannel (location : Location) (source : BoxedError)
  | regionServer (addr : String) (code : Code) (source : BoxedError) (location : Location)
  | flowServer (addr : String) (code : Code) (source : BoxedError) (location : Location)
  | server (code : StatusCode) (msg : String) (location : Location)
  | illegalDatabaseResponse (err_msg : String) (location : Location)
  | invalidAscii (value : String) (location : Location)
deriving DecidableEq

namespace Error

/-- `Error::should_retry`: the exact `matches!` of the source. -/
def should_retry : Error → Bool
  | .regionServer _ .cancelled _ _ => true
  | .regionServer _ .deadlineExceeded _ _ => true
  | .regionServer _ .unavailable _ _ => true
  | .regionServer _ .unknown _ _ => true
  | _ => false

/-- The spec's description of retriability, written from its words for
comparison with `should_retry`: an error "originates from a region/flow
server with transport code `Cancelled`, `DeadlineExceeded`, `Unavailable`,
or `Unknown`". -/
def specRetriable : Error → Bool
  | .regionServer _ c _ _ | .flowServer _ c _ _ =>
    c = .cancelled ∨ c = .deadlineExceeded ∨ c = .unavailable ∨ c = .unknown
  | _ => false

end Error

/-! ## The `x-greptime-err-info` wire header (`common/error/src/lib.rs`)

Header values are modelled as lists of Unicode scalar codes (`ℕ`); a Rust
`char` is exactly a Unicode scalar value.  `encode` applies Rust's
`char::escape_default` to `msg` and to each stack frame; `decode` applies
the inverse unescape. -/

/-- A Unicode scalar value: what `char::from_u32` accepts. -/
def ValidScalar (c : ℕ) : Prop := c < 1114112 ∧ ¬(55296 ≤ c ∧ c ≤ 57343)

instance (c : ℕ) : Decidable (ValidScalar c) := by unfold ValidScalar; infer_instance

/-- Lower-case hex digit for `escape_unicode`. -/
def hexDigitChar (d : ℕ) : ℕ := if d < 10 then 48 + d else 87 + d

/-- Inverse of a hex digit character (upper case accepted, as the decoder
does). -/
def isHexDigitVal (c : ℕ) : Option ℕ :=
  if 48 ≤ c ∧ c ≤ 57 then some (c - 48)
  else if 97 ≤ c ∧ c ≤ 102 then some (c - 87)
  else if 65 ≤ c ∧ c ≤ 70 then some (c - 55)
  else none

/-- Minimal lower-case hex rendering of `n`, most significant digit first
(what `{:x}` prints inside `\u{…}`). -/
def hexRepr (n : ℕ) : List ℕ :=
  if n = 0 then [48] else ((Nat.digits 16 n).map hexDigitChar).reverse

/-- Rust `char::escape_default` on one scalar: `\t`, `\r`, `\n`, `\\`,
`\'`, `\"` specially; printable ASCII verbatim; everything else as
`\u{hex}`. -/
def escapeChar (c : ℕ) : List ℕ :=
  if c = 9 then [92, 116]
  else if c = 13 then [92, 114]
  else if c = 10 then [92, 110]
  else if c = 92 then [92, 92]
  else if c = 39 then [92, 39]
  else if c = 34 then [92, 34]
  else if 32 ≤ c ∧ c ≤ 126 then [c]
  else [92, 117, 123] ++ hexRepr c ++ [125]

/-- `s.escape_default()`: escape every character. -/
def escapeDefault (s : List ℕ) : List ℕ := s.flatMap escapeChar

/-- Consume hex digits up to a closing brace (code 125), accumulating the
value: the `\u{…}` body parser of the unescaper. -/
def parseHexBody : List ℕ → ℕ → Option (ℕ × List ℕ)
  | [], _ => none
  | c :: rest, acc =>
    if c = 125 then some (acc, rest)
    else
      match isHexDigitVal c with
      | some d => parseHexBody rest (acc * 16 + d)
      | none => none

theorem parseHexBody_length {l : List ℕ} {acc n : ℕ} {rest : List ℕ}
    (h : parseHexBody l acc = some (n, rest)) : rest.length < l.length := by
  induction l generalizing acc with
  | nil => simp [parseHexBody] at h
  | cons c t ih =>
    unfold parseHexBody at h
    split at h
    · simp only [Option.some.injEq, Prod.mk.injEq] at h
      obtain ⟨rfl, rfl⟩ := h
      simp
    · split at h
      · have := ih h
        simp at this ⊢
        omega
      · simp at h

/-- The `\u{…}` arm of the unescaper: expect an opening brace, parse the
hex body, and check the code point is a Unicode scalar. -/
def unescU : List ℕ → Option (ℕ × List ℕ)
  | [] => none
  | b :: rest3 =>
    if b = 123 then
      match parseHexBody rest3 0 with
      | some (n, rest4) => if ValidScalar n then some (n, rest4) else none
      | none => none
    else none

/-- The `\xNN` arm of the unescaper: exactly two hex digits. -/
def unescX : List ℕ → Option (ℕ × List ℕ)
  | d1 :: d2 :: rest3 =>
    (match isHexDigitVal d1, isHexDigitVal d2 with
     | some hi, some lo =>
       if ValidScalar (hi * 16 + lo) then some (hi * 16 + lo, rest3) else none
     | _, _ => none)
  | _ => none

/-- Decode the character following a backslash. -/
def unescEsc (e : ℕ) (rest2 : List ℕ) : Option (ℕ × List ℕ) :=
  if e = 98 then some (8, rest2)
  else if e = 102 then some (12, rest2)
  else if e = 110 then some (10, rest2)
  else if e = 114 then some (13, rest2)
  else if e = 116 then some (9, rest2)
  else if e = 39 then some (39, rest2)
  else if e = 34 then some (34, rest2)
  else if e = 92 then some (92, rest2)
  else if e = 117 then unescU rest2
  else if e = 120 then unescX rest2
  else none

/-- One step of the unescaper (`unescaper::unescape`): decode a single
(possibly escaped) character off the front of the input, failing on a
dangling backslash, an unknown escape, a malformed `\u{…}`/`\xNN` body, or
a non-scalar code point. -/
def unescStep : List ℕ → Option (ℕ × List ℕ)
  | [] => none
  | c :: rest =>
    if c = 92 then
      match rest with
      | [] => none
      | e :: rest2 => unescEsc e rest2
    else some (c, rest)

theorem unescU_length {l : List ℕ} {c : ℕ} {r : List ℕ}
    (h : unescU l = some (c, r)) : r.length < l.length := by
  unfold unescU at h
  repeat' split at h
  all_goals try (exact Option.noConfusion h)
  all_goals injection h with h1
  all_goals injection h1 with h1 h2
  all_goals subst h2
  all_goals
    have hlt := parseHexBody_length (by assumption)
  all_goals
    simp
  all_goals omega

theorem unescX_length {l : List ℕ} {c : ℕ} {r : List ℕ}
    (h : unescX l = some (c, r)) : r.length ≤ l.length := by
  unfold unescX at h
  repeat' split at h
  all_goals try (exact Option.noConfusion h)
  all_goals injection h with h1
  all_goals injection h1 with h1 h2
  all_goals subst h2
  all_goals simp
  all_goals omega

theorem unescEsc_length {e : ℕ} {l : List ℕ} {c : ℕ} {r : List ℕ}
    (h : unescEsc e l = some (c, r)) : r.length ≤ l.length := by
  unfold unescEsc at h
  repeat' split at h
  all_goals try (exact Option.noConfusion h)
  all_goals
    first
      | (injection h with h1
         injection h1 with h1 h2
         subst h2
         exact le_refl _)
      | exact le_of_lt (unescU_length h)
      | exact unescX_length h

theorem unescStep_length {l : List ℕ} {c : ℕ} {r : List ℕ}
    (h : unescStep l = some (c, r)) : r.length < l.length := by
  unfold unescStep at h
  repeat' split at h
  all_goals try (exact Option.noConfusion h)
  · have := unescEsc_length h
    simp
    omega
  · injection h with h1
    injection h1 with h1 h2
    subst h2
    simp

/-- The unescaper: decode characters until the input is exhausted. -/
def unescape (l : List ℕ) : Option (List ℕ) :=
  match l with
  | [] => some []
  | a :: as =>
    match hp : unescStep (a :: as) with
    | some (c, rest) => (unescape rest).map (c :: ·)
    | none => none
termination_by l.length
decreasing_by
  have := unescStep_length hp
  omega

/-- The decoded error-info header: status code, message, stack frames. -/
structure ErrorInfoHeader where
  code : ℕ
  msg : List ℕ
  stack_errors : List (List ℕ)
deriving DecidableEq

/-- Decimal rendering of the `u32` code (`HeaderValue::from(u32)`). -/
def decRepr (n : ℕ) : List ℕ :=
  if n = 0 then [48] else ((Nat.digits 10 n).map (fun d => 48 + d)).reverse

def decDigitVal (c : ℕ) : Option ℕ :=
  if 48 ≤ c ∧ c ≤ 57 then some (c - 48) else none

def parseDecAux : List ℕ → ℕ → Option ℕ
  | [], acc => some acc
  | c :: rest, acc =>
    match decDigitVal c with
    | some d => parseDecAux rest (acc * 10 + d)
    | none => none

/-- `str::parse::<u32>` on digit strings: nonempty, all decimal digits, and
within `u32` range. -/
def parseU32 (l : List ℕ) : Option ℕ :=
  if l = [] then none
  else
    match parseDecAux l 0 with
    | some n => if n < 2 ^ 32 then some n else none
    | none => none

namespace ErrorInfoHeader

/-- `ErrorInfoHeader::encode`: the code in decimal, then the escaped
message, then each escaped stack frame. -/
def encode (h : ErrorInfoHeader) : List (List ℕ) :=
  decRepr h.code :: escapeDefault h.msg :: h.stack_errors.map escapeDefault

/-- `ErrorInfoHeader::decode`: parse the code, unescape each stack frame,
unescape the message; any failure invalidates the header. -/
def decode (values : List (List ℕ)) : Option ErrorInfoHeader :=
  match values with
  | code_v :: msg_v :: rest => do
      let code ← parseU32 code_v
      let stack ← rest.mapM unescape
      let msg ← unescape msg_v
      some { code := code, msg := msg, stack_errors := stack }
  | _ => none

end ErrorInfoHeader

/-! ## Ordered maps and sets

`BTreeMap` is modelled as a key-sorted association list and `BTreeSet` as a
sorted list; iteration order is ascending key order, as for the B-trees. -/

namespace BMap

variable {K V : Type} [LinearOrder K]

def find? : List (K × V) → K → Option V
  | [], _ => none
  | (k', v) :: t, k => if k' = k then some v else find? t k

/-- Insert-or-replace, keeping the list sorted by key. -/
def insert : List (K × V) → K → V → List (K × V)
  | [], k, v => [(k, v)]
  | (k', v') :: t, k, v =>
    if k < k' then (k, v) :: (k', v') :: t
    else if k = k' then (k, v) :: t
    else (k', v') :: insert t k v

def erase (l : List (K × V)) (k : K) : List (K × V) :=
  l.filter (fun p => p.1 ≠ k)

/-- Well-formedness: strictly increasing keys. -/
def WF (l : List (K × V)) : Prop := l.Pairwise (fun a b => a.1 < b.1)

instance (l : List (K × V)) : Decidable (WF l) := by
  unfold WF; exact List.instDecidablePairwise l

end BMap

namespace BSet

variable {K : Type} [LinearOrder K]

/-- `BTreeSet::insert`: a present element is kept, not replaced. -/
def insert : List K → K → List K
  | [], k => [k]
  | k' :: t, k =>
    if k < k' then k :: k' :: t
    else if k = k' then k' :: t
    else k' :: insert t k

def erase (l : List K) (k : K) : List K := l.filter (fun x => x ≠ k)

def WF (l : List K) : Prop := l.Pairwise (· < ·)

instance (l : List K) : Decidable (WF l) := by
  unfold WF; exact List.instDecidablePairwise l

end BSet

/-! ## `DiffMap` (`flow/src/hydro_compute/utils.rs`) -/

/-- A `BTreeMap` which tracks one `(old?, new?)` transition per touched key
between calls of `gen_diff`. -/
structure DiffMap (K V : Type) where
  inner : List (K × V)
  delta : List (K × Option V × Option V)
deriving DecidableEq

namespace DiffMap

variable {K V : Type} [LinearOrder K]

def get (m : DiffMap K V) (k : K) : Option V := BMap.find? m.inner k

/-- `DiffMap::insert`: returns the displaced value and the new map. -/
def insert (m : DiffMap K V) (k : K) (v : V) : Option V × DiffMap K V :=
  let old_v := BMap.find? m.inner k
  let inner := BMap.insert m.inner k v
  let delta :=
    match BMap.find? m.delta k with
    | some d => BMap.insert m.delta k (d.1, some v)
    | none =>
      match old_v with
      | some ov => BMap.insert m.delta k (some ov, some v)
      | none => BMap.insert m.delta k (none, some v)
  (old_v, { inner := inner, delta := delta })

/-- `DiffMap::remove`: returns the removed value and the new map. -/
def remove (m : DiffMap K V) (k : K) : Option V × DiffMap K V :=
  let old_v := BMap.find? m.inner k
  let inner := BMap.erase m.inner k
  let delta :=
    match BMap.find? m.delta k with
    | some d => BMap.insert m.delta k (d.1, none)
    | none =>
      match old_v with
      | some ov => BMap.insert m.delta k (some ov, none)
      | none => m.delta
  (old_v, { inner := inner, delta := delta })

/-- The records one drained transition contributes to `gen_diff`'s output:
a retraction of the old value, then an insertion of the new one. -/
def genRecords (tick : Timestamp) (kd : K × Option V × Option V) :
    List ((K × V) × Timestamp × Diff) :=
  (match kd.2.1 with
   | some old_v => [((kd.1, old_v), tick, (-1 : ℤ))]
   | none => []) ++
  (match kd.2.2 with
   | some new_v => [((kd.1, new_v), tick, (1 : ℤ))]
   | none => [])

/-- `DiffMap::gen_diff`: drain the transition buffer into
`((k, v), tick, ±1)` records, a retraction before an insertion per key. -/
def gen_diff (m : DiffMap K V) (tick : Timestamp) :
    List ((K × V) × Timestamp × Diff) × DiffMap K V :=
  (m.delta.flatMap (genRecords tick), { m with delta := [] })

end DiffMap

/-- An insert-or-remove edit, used to quantify over interleavings of
`DiffMap::insert` and `DiffMap::remove` calls. -/
inductive MapOp (K V : Type) where
  | ins (k : K) (v : V)
  | del (k : K)

namespace MapOp

def key {K V : Type} : MapOp K V → K
  | .ins k _ => k
  | .del k => k

end MapOp

def DiffMap.applyOp {K V : Type} [LinearOrder K] (m : DiffMap K V) :
    MapOp K V → DiffMap K V
  | .ins k v => (m.insert k v).2
  | .del k => (m.remove k).2

def DiffMap.applyOps {K V : Type} [LinearOrder K] (m : DiffMap K V)
    (ops : List (MapOp K V)) : DiffMap K V :=
  ops.foldl DiffMap.applyOp m

/-! ## Scheduled state (`flow/src/hydro_compute/render/state.rs`) -/

/-- `TemporalFilterState`: pending future `(Row, Diff)` contributions,
indexed by timestamp. -/
structure TemporalFilterState where
  spine : List (Timestamp × List (Row × Diff))
deriving DecidableEq

namespace TemporalFilterState

/-- One step of `append_delta_row`: coalesce by `(time, row)`, dropping
entries whose accumulated diff reaches zero. -/
def appendOne (s : TemporalFilterState) (row : Row) (time : Timestamp)
    (diff : Diff) : TemporalFilterState :=
  let this_time := (BMap.find? s.spine time).getD []
  let this_time :=
    match BMap.find? this_time row with
    | some d =>
      if d + diff = 0 then BMap.erase this_time row
      else BMap.insert this_time row (d + diff)
    | none => BMap.insert this_time row diff
  { spine := BMap.insert s.spine time this_time }

def append_delta_row (s : TemporalFilterState)
    (rows : List (Row × Timestamp × Diff)) : TemporalFilterState :=
  rows.foldl (fun s rtd => s.appendOne rtd.1 rtd.2.1 rtd.2.2) s

/-- `trunc_until_inclusive`: `split_off(&(time + 1))` keeps the buckets with
key `≥ time + 1`; the rest are flattened, bucket by bucket. -/
def trunc_until_inclusive (s : TemporalFilterState) (time : Timestamp) :
    List (Row × Timestamp × Diff) × TemporalFilterState :=
  let lte_time := s.spine.takeWhile (fun e => e.1 < time + 1)
  let gt_time := s.spine.dropWhile (fun e => e.1 < time + 1)
  let ret := lte_time.flatMap fun tr => tr.2.map fun rd => (rd.1, tr.1, rd.2)
  (ret, { spine := gt_time })

end TemporalFilterState

/-- Modelled from the spec: the scalar expression that, applied to a key
row, yields the event time.  Only the forms the embedded code constructs
(`ScalarExpr::Column`, `ScalarExpr::literal`) are represented. -/
inductive ScalarExpr where
  | column (i : ℕ)
  | literal (v : Value) (ty : ConcreteDataType)
deriving DecidableEq

def ScalarExpr.eval (e : ScalarExpr) (values : List Value) :
    Except EvalError Value :=
  match e with
  | .column i =>
    match values[i]? with
    | some v => .ok v
    | none => .error (.invalidArgument "column index out of range")
  | .literal v _ => .ok v

/-- Modelled from the spec: `repr::value_to_internal_ts`, converting a value
to an internal millisecond timestamp. -/
def value_to_internal_ts : Value → Except EvalError Timestamp
  | .int64 x => .ok x
  | .datetime ms => .ok ms
  | _ => .error (.tryFromValue "value cannot be converted to an internal timestamp")

/-- `ExpiringKeyValueState`: an event-time-keyed kv state with optional TTL.
`time2key` is the reverse index from event time to the keys at that time. -/
structure ExpiringKeyValueState where
  inner : DiffMap Row Row
  time2key : List (Timestamp × List Row)
  key_expiration_duration : Option Timestamp
  event_timestamp_from_row : ScalarExpr
deriving DecidableEq

namespace ExpiringKeyValueState

def new (key_expiration_duration : Option Timestamp)
    (event_timestamp_from_row : ScalarExpr) : ExpiringKeyValueState :=
  { inner := ⟨[], []⟩, time2key := [],
    key_expiration_duration := key_expiration_duration,
    event_timestamp_from_row := event_timestamp_from_row }

def extract_event_ts (s : ExpiringKeyValueState) (row : Row) :
    Except EvalError Timestamp := do
  value_to_internal_ts (← s.event_timestamp_from_row.eval row.inner)

def get_expire_time (s : ExpiringKeyValueState) (current : Timestamp) :
    Option Timestamp :=
  s.key_expiration_duration.map (fun d => current - d)

/-- `trunc_expired`: `split_off(&expire_time)` keeps the buckets with key
`≥ expire_time`; every key listed in an earlier bucket is removed straight
from `inner.inner`, producing no delta records; the count of removed keys
is returned. -/
def trunc_expired (s : ExpiringKeyValueState) (cur_time : Timestamp) :
    ℕ × ExpiringKeyValueState :=
  match s.get_expire_time cur_time with
  | none => (0, s)
  | some expire_time =>
    let before := s.time2key.takeWhile (fun e => e.1 < expire_time)
    let after := s.time2key.dropWhile (fun e => e.1 < expire_time)
    let removed := before.flatMap (fun e => e.2)
    let inner := removed.foldl (fun m k => BMap.erase m k) s.inner.inner
    (removed.length,
      { s with time2key := after, inner := { s.inner with inner := inner } })

/-- The success path of `insert`, after the expiry gate. -/
def insertRaw (s : ExpiringKeyValueState) (ts : Timestamp) (k v : Row) :
    Option Row × ExpiringKeyValueState :=
  let time2key :=
    BMap.insert s.time2key ts (BSet.insert ((BMap.find? s.time2key ts).getD []) k)
  let (ret, inner) := s.inner.insert k v
  (ret, { s with time2key := time2key, inner := inner })

/-- `insert`: discards the row with `LateDataDiscarded` when
`Some(ts) < expire_at` in the `Option` order (`None` is below `Some`, so no
TTL means no discarding). -/
def insert (s : ExpiringKeyValueState) (current : Timestamp) (k v : Row) :
    Except EvalError (Option Row) × ExpiringKeyValueState :=
  match s.extract_event_ts k with
  | .error e => (.error e, s)
  | .ok ts =>
    match s.get_expire_time current with
    | some expire_at =>
      if ts < expire_at then
        (.error (.lateDataDiscarded (expire_at - ts).toNat), s)
      else
        let r := s.insertRaw ts k v
        (.ok r.1, r.2)
    | none =>
      let r := s.insertRaw ts k v
      (.ok r.1, r.2)

/-- The success path of `remove`, after the expiry gate.
`entry(ts).or_default().remove(k)` creates the bucket when it is absent. -/
def removeRaw (s : ExpiringKeyValueState) (ts : Timestamp) (k : Row) :
    Option Row × ExpiringKeyValueState :=
  let time2key :=
    BMap.insert s.time2key ts (BSet.erase ((BMap.find? s.time2key ts).getD []) k)
  let (ret, inner) := s.inner.remove k
  (ret, { s with time2key := time2key, inner := inner })

/-- `remove`: gated by the same `Some(ts) < expire_at` comparison as
`insert`. -/
def remove (s : ExpiringKeyValueState) (current : Timestamp) (k : Row) :
    Except EvalError (Option Row) × ExpiringKeyValueState :=
  match s.extract_event_ts k with
  | .error e => (.error e, s)
  | .ok ts =>
    match s.get_expire_time current with
    | some expire_at =>
      if ts < expire_at then
        (.error (.lateDataDiscarded (expire_at - ts).toNat), s)
      else
        let r := s.removeRaw ts k
        (.ok r.1, r.2)
    | none =>
      let r := s.removeRaw ts k
      (.ok r.1, r.2)

def gen_diff (s : ExpiringKeyValueState) (tick : Timestamp) :
    List ((Row × Row) × Timestamp × Diff) × ExpiringKeyValueState :=
  let r := s.inner.gen_diff tick
  (r.1, { s with inner := r.2 })

end ExpiringKeyValueState

/-! ## Verified properties -/

/-- C2 counterexample: a `FlowServer` error with transport code `Cancelled`
is retriable per the spec's classification but `should_retry` rejects it. -/
theorem flowServer_cancelled_not_retried :
    Error.specRetriable
        (.flowServer "peer" .cancelled ⟨.internal⟩ ⟨"client.rs", 1, 1⟩) = true ∧
    Error.should_retry
        (.flowServer "peer" .cancelled ⟨.internal⟩ ⟨"client.rs", 1, 1⟩) = false :=
  ⟨rfl, rfl⟩

/-- C2 (amended): `should_retry(e)` is true iff `e` is a `RegionServer`
error whose transport code is `Cancelled`, `DeadlineExceeded`,
`Unavailable` or `Unknown`; `FlowServer` errors (and all others) are never
retried. -/
theorem should_retry_iff (e : Error) :
    Error.should_retry e = true ↔
      ∃ addr code source location,
        e = .regionServer addr code source location ∧
          (code = .cancelled ∨ code = .deadlineExceeded ∨
            code = .unavailable ∨ code = .unknown) := by
  constructor
  · intro h
    cases e
    case regionServer addr code source location =>
      refine ⟨addr, code, source, location, rfl, ?_⟩
      cases code <;> simp_all [Error.should_retry]
    all_goals simp [Error.should_retry] at h
  · rintro ⟨addr, code, source, location, rfl, hc⟩
    rcases hc with rfl | rfl | rfl | rfl <;> rfl

/-- C8: reconstructing a `Float` accumulator from a serialized state with
`non_nulls == 0` forces `accum` to `0.0`, whatever accum value the state
carried. -/
theorem float_tryFrom_zeroes_accum (state : List Value) (a : Float)
    (h : Float.tryFrom state = .ok a) (h0 : a.non_nulls = 0) :
    a.accum = .finite 0 := by
  rcases state with _ | ⟨v1, state⟩
  · simp [Float.tryFrom] at h
  rcases state with _ | ⟨v2, state⟩
  · simp [Float.tryFrom] at h
  rcases state with _ | ⟨v3, state⟩
  · simp [Float.tryFrom] at h
  rcases state with _ | ⟨v4, state⟩
  · simp [Float.tryFrom] at h
  rcases state with _ | ⟨v5, state⟩
  · simp [Float.tryFrom] at h
  rcases state with _ | ⟨v6, state⟩
  · simp only [Float.tryFrom, bind, Except.bind] at h
    cases h1 : f64TryFromValue v1 <;> rw [h1] at h <;> try simp at h
    cases h2 : diffTryFromValue v2 <;> rw [h2] at h <;> try simp at h
    cases h3 : diffTryFromValue v3 <;> rw [h3] at h <;> try simp at h
    cases h4 : diffTryFromValue v4 <;> rw [h4] at h <;> try simp at h
    cases h5 : diffTryFromValue v5 <;> rw [h5] at h <;> try simp at h
    simp only [pure, Except.pure, Except.ok.injEq] at h
    subst h
    split at h0
    · simp_all
    · simp_all
  · simp [Float.tryFrom] at h

/-- C8 witness: a state carrying accum `5.0` but zero `non_nulls`. -/
theorem float_tryFrom_zeroes_accum_witness :
    ({ accum := .finite 0, pos_infs := 0, neg_infs := 0, nans := 0,
       non_nulls := 0 } : Float).accum = .finite 0 :=
  float_tryFrom_zeroes_accum
    [.float64 (.finite 5), .int64 0, .int64 0, .int64 0, .int64 0]
    { accum := .finite 0, pos_infs := 0, neg_infs := 0, nans := 0, non_nulls := 0 }
    (by with_unfolding_all rfl) rfl

/-- C9 counterexample: on a min/max accumulator already holding an `Int32`,
an update with a `Float64` value and diff `0` fails with `TypeMismatch`,
not with an `Internal` error as the claim states for every value. -/
theorem ordValue_nonpositive_type_mismatch :
    OrdValue.update ⟨some (.int32 1), 1⟩ .maxInt32 (.float64 (.finite 1)) 0 =
      .error (.typeMismatch .int32 .float64) := rfl

/-- C9 (amended): for a min/max aggregate, an update whose value type
matches the stored one (or where nothing is stored) fails with the
`Internal` non-monotonic-input error when `diff ≤ 0`, leaving `val` and
`non_nulls` unchanged, and succeeds when `diff > 0`; a mismatched value
type instead fails with `TypeMismatch` (again leaving the state
unchanged). -/
theorem ordValue_minmax_update (o : OrdValue) (f : AggregateFunc) (v : Value)
    (d : Diff) (hf : f.isMax = true ∨ f.isMin = true) :
    ((∀ w, o.val = some w → w.dataType = v.dataType) →
      ((d ≤ 0 → mutCall (fun a => a.update f v d) o =
          (o, some (.internalError
            "OrdValue Accumulator does not support non-monotonic input for min/max aggregation"))) ∧
        (0 < d → ∃ o', o.update f v d = .ok o'))) ∧
    (∀ w, o.val = some w → w.dataType ≠ v.dataType →
      mutCall (fun a => a.update f v d) o = (o, some (.typeMismatch w.dataType v.dataType))) := by
  have hens : (f.isMax || f.isMin || decide (f = .count)) = true := by
    rcases hf with h | h <;> simp [h]
  have hmm2 : (f.isMax || f.isMin) = true := by
    rcases hf with h | h <;> simp [h]
  refine ⟨fun hty => ⟨fun hd => ?_, fun hd => ?_⟩, fun w hv hne => ?_⟩
  · have hupd : o.update f v d = .error (.internalError
        "OrdValue Accumulator does not support non-monotonic input for min/max aggregation") := by
      unfold OrdValue.update
      rw [if_pos hens]
      cases hv : o.val with
      | none =>
        unfold OrdValue.update.updateChecked
        rw [if_pos ⟨hd, hmm2⟩]
      | some w =>
        simp only
        rw [if_neg (by simp [hty w hv])]
        unfold OrdValue.update.updateChecked
        rw [if_pos ⟨hd, hmm2⟩]
    simp [mutCall, hupd]
  · have hnd : ¬(d ≤ 0 ∧ (f.isMax || f.isMin) = true) := by
      intro hc
      exact absurd hc.1 (not_le.mpr hd)
    unfold OrdValue.update
    rw [if_pos hens]
    cases hv : o.val with
    | none =>
      unfold OrdValue.update.updateChecked
      rw [if_neg hnd]
      exact ⟨_, rfl⟩
    | some w =>
      simp only
      rw [if_neg (by simp [hty w hv])]
      unfold OrdValue.update.updateChecked
      rw [if_neg hnd]
      exact ⟨_, rfl⟩
  · have hupd : o.update f v d = .error (.typeMismatch w.dataType v.dataType) := by
      unfold OrdValue.update
      rw [if_pos hens]
      simp only [hv]
      rw [if_pos (by simpa using hne)]
    simp [mutCall, hupd]

/-- C9 witness: a fresh `MaxInt32` accumulator rejects a retraction and
accepts an insertion. -/
theorem ordValue_minmax_update_witness :
    ((-1 : ℤ) ≤ 0 →
        mutCall (fun a : OrdValue => a.update .maxInt32 (.int32 5) (-1))
            (OrdValue.mk none 0) =
          (OrdValue.mk none 0, some (.internalError
            "OrdValue Accumulator does not support non-monotonic input for min/max aggregation"))) ∧
      (0 < (-1 : ℤ) →
        ∃ o', OrdValue.update (OrdValue.mk none 0) .maxInt32 (.int32 5) (-1) = .ok o') :=
  (ordValue_minmax_update (OrdValue.mk none 0) .maxInt32 (.int32 5) (-1)
      (Or.inl rfl)).1 (fun w hw => by simp at hw)

/-- `OrdValue::update` with `Count` on an accumulator holding no value:
always succeeds, never sets `val`, adds `diff` to `non_nulls`. -/
theorem ordValue_update_count_none (n : Diff) (v : Value) (d : Diff) :
    OrdValue.update ⟨none, n⟩ .count v d = .ok ⟨none, n + d⟩ := by
  unfold OrdValue.update
  rw [if_pos (by rfl)]
  rw [OrdValue.update.updateChecked, if_neg (by simp [AggregateFunc.isMax, AggregateFunc.isMin])]
  rfl

/-- State-level round trip for the `Bool` accumulator. -/
theorem boolAcc_tryFrom_intoState (b : BoolAcc) :
    BoolAcc.tryFrom b.intoState = .ok b := rfl

/-- State-level round trip for the `SimpleNumber` accumulator. -/
theorem simpleNumber_tryFrom_intoState (s : SimpleNumber) :
    SimpleNumber.tryFrom s.intoState = .ok s := rfl

/-- State-level round trip for the `Float` accumulator, away from the
zeroing corner (`non_nulls = 0` with a nonzero residue). -/
theorem float_tryFrom_intoState (a : Float)
    (h : a.non_nulls ≠ 0 ∨ a.accum = .finite 0) :
    Float.tryFrom a.intoState = .ok a := by
  have hbase : Float.tryFrom a.intoState =
      .ok (if a.non_nulls = 0 then { a with accum := .finite 0 } else a) := rfl
  by_cases h0 : a.non_nulls = 0
  · rcases h with h | h
    · exact absurd h0 h
    · rw [hbase, if_pos h0]
      cases a
      simp_all
  · rw [hbase, if_neg h0]

/-- State-level round trip for the `OrdValue` accumulator: the rebuilt
value wraps the serialized slot (so an empty accumulator comes back as
`Some(Null)`), which leaves `eval` and `into_state` unchanged. -/
theorem ordValue_tryFrom_intoState (o : OrdValue) :
    OrdValue.tryFrom o.intoState =
      .ok ⟨some (o.val.getD .null), o.non_nulls⟩ := rfl

/-- Variant tag of an `Accum`, used to show updates never change the
variant. -/
def Accum.tag : Accum → ℕ
  | .bool _ => 0
  | .simpleNumber _ => 1
  | .float _ => 2
  | .ordValue _ => 3

theorem Accum.update_tag {a a' : Accum} {f : AggregateFunc} {v : Value}
    {d : Diff} (h : Accum.update a f v d = .ok a') : a'.tag = a.tag := by
  cases a with
  | bool b =>
    cases hb : b.update f v d with
    | error e => simp [Accum.update, hb, Except.map] at h
    | ok x => simp [Accum.update, hb, Except.map] at h; subst h; rfl
  | simpleNumber s =>
    cases hb : s.update f v d with
    | error e => simp [Accum.update, hb, Except.map] at h
    | ok x => simp [Accum.update, hb, Except.map] at h; subst h; rfl
  | float fl =>
    cases hb : fl.update f v d with
    | error e => simp [Accum.update, hb, Except.map] at h
    | ok x => simp [Accum.update, hb, Except.map] at h; subst h; rfl
  | ordValue o =>
    cases hb : o.update f v d with
    | error e => simp [Accum.update, hb, Except.map] at h
    | ok x => simp [Accum.update, hb, Except.map] at h; subst h; rfl

theorem Accum.updateBatch_tag {a a' : Accum} {f : AggregateFunc}
    {l : List (Value × Diff)} (h : Accum.updateBatch a f l = .ok a') :
    a'.tag = a.tag := by
  induction l generalizing a with
  | nil =>
    simp only [Accum.updateBatch, updateBatchWith, List.foldlM_nil, pure,
      Except.pure, Except.ok.injEq] at h
    subst h
    rfl
  | cons vd t ih =>
    simp only [Accum.updateBatch, updateBatchWith, List.foldlM_cons] at h
    cases hu : Accum.update a f vd.1 vd.2 with
    | error e => rw [hu] at h; simp [bind, Except.bind] at h
    | ok a1 =>
      rw [hu] at h
      simp only [bind, Except.bind] at h
      exact (ih h).trans (Accum.update_tag hu)

/-- The guard carved out by the C1 counterexample: a float accumulator
whose `non_nulls` is zero while a nonzero residue sits in `accum` does not
survive reconstruction; everything else does. -/
def Accum.floatOk : Accum → Prop
  | .float f => f.non_nulls ≠ 0 ∨ f.accum = .finite 0
  | _ => True

instance (a : Accum) : Decidable (Accum.floatOk a) := by
  unfold Accum.floatOk
  cases a <;> infer_instance

theorem accum_case_bool (f : AggregateFunc) (S : List (Value × Diff))
    (a0 acc : Accum)
    (hnew : Accum.new_accum f = .ok (.bool ⟨0, 0⟩))
    (hdisp : ∀ st, Accum.try_into_accum f st = (BoolAcc.tryFrom st).map .bool)
    (h0 : Accum.new_accum f = .ok a0)
    (h1 : Accum.updateBatch a0 f S = .ok acc) :
    ∃ acc', Accum.try_into_accum f acc.intoState = .ok acc' ∧
      acc'.eval f = acc.eval f ∧ acc'.intoState = acc.intoState := by
  rw [hnew] at h0
  injection h0 with h0
  subst h0
  have htag := Accum.updateBatch_tag h1
  cases acc
  case bool b =>
    exact ⟨.bool b, by simp [hdisp, Accum.intoState, boolAcc_tryFrom_intoState, Except.map],
      rfl, rfl⟩
  all_goals simp [Accum.tag] at htag

theorem accum_case_simple (f : AggregateFunc) (S : List (Value × Diff))
    (a0 acc : Accum)
    (hnew : Accum.new_accum f = .ok (.simpleNumber ⟨0, 0⟩))
    (hdisp : ∀ st, Accum.try_into_accum f st = (SimpleNumber.tryFrom st).map .simpleNumber)
    (h0 : Accum.new_accum f = .ok a0)
    (h1 : Accum.updateBatch a0 f S = .ok acc) :
    ∃ acc', Accum.try_into_accum f acc.intoState = .ok acc' ∧
      acc'.eval f = acc.eval f ∧ acc'.intoState = acc.intoState := by
  rw [hnew] at h0
  injection h0 with h0
  subst h0
  have htag := Accum.updateBatch_tag h1
  cases acc
  case simpleNumber s =>
    exact ⟨.simpleNumber s,
      by simp [hdisp, Accum.intoState, simpleNumber_tryFrom_intoState, Except.map],
      rfl, rfl⟩
  all_goals simp [Accum.tag] at htag

theorem accum_case_float (f : AggregateFunc) (S : List (Value × Diff))
    (a0 acc : Accum)
    (hnew : Accum.new_accum f = .ok (.float ⟨.finite 0, 0, 0, 0, 0⟩))
    (hdisp : ∀ st, Accum.try_into_accum f st = (Float.tryFrom st).map .float)
    (h0 : Accum.new_accum f = .ok a0)
    (h1 : Accum.updateBatch a0 f S = .ok acc)
    (h2 : Accum.floatOk acc) :
    ∃ acc', Accum.try_into_accum f acc.intoState = .ok acc' ∧
      acc'.eval f = acc.eval f ∧ acc'.intoState = acc.intoState := by
  rw [hnew] at h0
  injection h0 with h0
  subst h0
  have htag := Accum.updateBatch_tag h1
  cases acc
  case float fl =>
    have hfl : fl.non_nulls ≠ 0 ∨ fl.accum = .finite 0 := h2
    exact ⟨.float fl,
      by simp [hdisp, Accum.intoState, float_tryFrom_intoState fl hfl, Except.map],
      rfl, rfl⟩
  all_goals simp [Accum.tag] at htag

theorem accum_case_ord (f : AggregateFunc) (S : List (Value × Diff))
    (a0 acc : Accum)
    (hnew : Accum.new_accum f = .ok (.ordValue ⟨none, 0⟩))
    (hdisp : ∀ st, Accum.try_into_accum f st = (OrdValue.tryFrom st).map .ordValue)
    (h0 : Accum.new_accum f = .ok a0)
    (h1 : Accum.updateBatch a0 f S = .ok acc) :
    ∃ acc', Accum.try_into_accum f acc.intoState = .ok acc' ∧
      acc'.eval f = acc.eval f ∧ acc'.intoState = acc.intoState := by
  rw [hnew] at h0
  injection h0 with h0
  subst h0
  have htag := Accum.updateBatch_tag h1
  cases acc
  case ordValue o =>
    refine ⟨.ordValue ⟨some (o.val.getD .null), o.non_nulls⟩,
      by simp [hdisp, Accum.intoState, ordValue_tryFrom_intoState, Except.map], ?_, ?_⟩
    · cases o with
      | mk val n => cases val <;> rfl
    · cases o with
      | mk val n => cases val <;> rfl
  all_goals simp [Accum.tag] at htag

/-- C1 (amended): serializing the accumulator built by a legal update
sequence and rebuilding it with `try_into_accum` preserves `eval` and
`into_state`, for every accumulator variant and supported aggregate
function — except in the corner the counterexample exhibits: a `Float`
accumulator whose `non_nulls` count is zero while a nonzero residue sits
in `accum` (there reconstruction forces `accum` to `0.0`). -/
theorem accum_roundtrip (f : AggregateFunc) (S : List (Value × Diff))
    (a0 acc : Accum)
    (h0 : Accum.new_accum f = .ok a0)
    (h1 : Accum.updateBatch a0 f S = .ok acc)
    (h2 : Accum.floatOk acc) :
    ∃ acc', Accum.try_into_accum f acc.intoState = .ok acc' ∧
      acc'.eval f = acc.eval f ∧ acc'.intoState = acc.intoState := by
  cases f <;>
    first
      | exact accum_case_bool _ S a0 acc rfl (fun st => rfl) h0 h1
      | exact accum_case_simple _ S a0 acc rfl (fun st => rfl) h0 h1
      | exact accum_case_float _ S a0 acc rfl (fun st => rfl) h0 h1 h2
      | exact accum_case_ord _ S a0 acc rfl (fun st => rfl) h0 h1

/-- C1 witness: `SumInt32` over `[(Int32(1), +1)]` round-trips. -/
theorem accum_roundtrip_witness :
    ∃ acc', Accum.try_into_accum .sumInt32
        (Accum.intoState (.simpleNumber ⟨1, 1⟩)) = .ok acc' ∧
      acc'.eval .sumInt32 = Accum.eval (.simpleNumber ⟨1, 1⟩) .sumInt32 ∧
      acc'.intoState = Accum.intoState (.simpleNumber ⟨1, 1⟩) :=
  accum_roundtrip .sumInt32 [(.int32 1, 1)] (.simpleNumber ⟨0, 0⟩)
    (.simpleNumber ⟨1, 1⟩) rfl (by with_unfolding_all rfl) trivial

/-- C1 counterexample: under `SumFloat64`, the legal sequence
`[(1.0, +1), (2.0, −1)]` leaves `accum = −1.0` with `non_nulls = 0`;
reconstruction zeroes the accumulator, so both `eval` and `into_state`
differ from the original's. -/
theorem accum_roundtrip_counterexample :
    Accum.new_accum .sumFloat64 = .ok (.float ⟨.finite 0, 0, 0, 0, 0⟩) ∧
    Accum.updateBatch (.float ⟨.finite 0, 0, 0, 0, 0⟩) .sumFloat64
        [(.float64 (.finite 1), 1), (.float64 (.finite 2), -1)] =
      .ok (.float ⟨.finite (-1), 0, 0, 0, 0⟩) ∧
    Accum.try_into_accum .sumFloat64
        (Accum.intoState (.float ⟨.finite (-1), 0, 0, 0, 0⟩)) =
      .ok (.float ⟨.finite 0, 0, 0, 0, 0⟩) ∧
    Accum.eval (.float ⟨.finite 0, 0, 0, 0, 0⟩) .sumFloat64 ≠
      Accum.eval (.float ⟨.finite (-1), 0, 0, 0, 0⟩) .sumFloat64 ∧
    Accum.intoState (.float ⟨.finite 0, 0, 0, 0, 0⟩) ≠
      Accum.intoState (.float ⟨.finite (-1), 0, 0, 0, 0⟩) :=
  ⟨rfl, by with_unfolding_all rfl, by with_unfolding_all rfl,
    of_decide_eq_false (by with_unfolding_all rfl),
    of_decide_eq_false (by with_unfolding_all rfl)⟩

/-- C10: under `Count`, every update sequence succeeds without ever setting
the stored optional value, `eval` returns `Null` for every aggregate
function, and the running count appears only as the second element of
`into_state`. -/
theorem ordValue_count_eval_null (S : List (Value × Diff)) (n : Diff) :
    ∃ nn : Diff,
      updateBatchWith (fun a v d => OrdValue.update a .count v d) ⟨none, n⟩ S =
        .ok ⟨none, nn⟩ ∧
      (∀ f, OrdValue.eval ⟨none, nn⟩ f = .ok .null) ∧
      OrdValue.intoState ⟨none, nn⟩ = [.null, .int64 nn] := by
  induction S generalizing n with
  | nil => exact ⟨n, rfl, fun f => rfl, rfl⟩
  | cons vd t ih =>
    obtain ⟨nn, h1, h2, h3⟩ := ih (n + vd.2)
    refine ⟨nn, ?_, h2, h3⟩
    simp only [updateBatchWith, List.foldlM_cons, ordValue_update_count_none]
    exact h1

namespace BMap

variable {K V : Type} [LinearOrder K]

theorem find?_insert_self (l : List (K × V)) (k : K) (v : V) :
    find? (insert l k v) k = some v := by
  induction l with
  | nil => simp [insert, find?]
  | cons q t ih =>
    obtain ⟨k', v'⟩ := q
    simp only [insert]
    split_ifs with h1 h2
    · simp [find?]
    · simp [find?]
    · have hne : k' ≠ k := fun he => h2 he.symm
      simp [find?, hne, ih]

theorem find?_insert_ne (l : List (K × V)) (k : K) (v : V) (k' : K)
    (hne : k' ≠ k) : find? (insert l k v) k' = find? l k' := by
  induction l with
  | nil => simp [insert, find?, hne.symm]
  | cons q t ih =>
    obtain ⟨k'', v''⟩ := q
    simp only [insert]
    split_ifs with h1 h2
    · simp [find?, hne.symm]
    · subst h2
      simp [find?, hne.symm]
    · by_cases hk : k'' = k' <;> simp [find?, hk, ih]

theorem find?_erase (l : List (K × V)) (k k' : K) :
    find? (erase l k) k' = if k' = k then none else find? l k' := by
  induction l with
  | nil => simp [erase, find?]
  | cons q t ih =>
    obtain ⟨k'', v''⟩ := q
    by_cases h : k'' = k
    · subst h
      have h1 : erase ((k'', v'') :: t) k'' = erase t k'' := by
        simp [erase, List.filter_cons]
      rw [h1, ih]
      by_cases hk : k' = k''
      · simp [hk]
      · have hne : k'' ≠ k' := fun he => hk he.symm
        simp [hk, find?, hne]
    · have h1 : erase ((k'', v'') :: t) k = (k'', v'') :: erase t k := by
        simp [erase, List.filter_cons, h]
      rw [h1]
      by_cases hk : k'' = k'
      · subst hk
        simp [find?, h]
      · simp [find?, hk, ih]

theorem mem_insert {l : List (K × V)} {k : K} {v : V} {p : K × V}
    (h : p ∈ insert l k v) : p = (k, v) ∨ p ∈ l := by
  induction l with
  | nil => simpa [insert] using h
  | cons q t ih =>
    simp only [insert] at h
    split_ifs at h with h1 h2
    · rcases List.mem_cons.mp h with rfl | hm
      · exact Or.inl rfl
      · exact Or.inr hm
    · rcases List.mem_cons.mp h with rfl | hm
      · exact Or.inl rfl
      · exact Or.inr (List.mem_cons_of_mem q hm)
    · rcases List.mem_cons.mp h with rfl | hm
      · exact Or.inr (List.mem_cons_self q t)
      · rcases ih hm with rfl | hm2
        · exact Or.inl rfl
        · exact Or.inr (List.mem_cons_of_mem q hm2)

theorem WF_insert {l : List (K × V)} (hWF : WF l) (k : K) (v : V) :
    WF (insert l k v) := by
  induction l with
  | nil => simp [insert, WF]
  | cons q t ih =>
    obtain ⟨k', v'⟩ := q
    rw [WF, List.pairwise_cons] at hWF
    obtain ⟨hhead, htail⟩ := hWF
    simp only [insert]
    split_ifs with h1 h2
    · refine List.Pairwise.cons ?_ (List.Pairwise.cons hhead htail)
      intro p hp
      rcases List.mem_cons.mp hp with rfl | hp
      · exact h1
      · exact h1.trans (hhead p hp)
    · subst h2
      exact List.Pairwise.cons hhead htail
    · refine List.Pairwise.cons ?_ (ih htail)
      intro p hp
      rcases mem_insert hp with rfl | hp
      · exact lt_of_le_of_ne (le_of_not_lt h1) (Ne.symm h2)
      · exact hhead p hp

theorem find?_eq_none_iff {l : List (K × V)} {k : K} :
    find? l k = none ↔ ∀ p ∈ l, p.1 ≠ k := by
  induction l with
  | nil => simp [find?]
  | cons q t ih =>
    obtain ⟨k', v'⟩ := q
    by_cases h : k' = k <;> simp [find?, h, ih]

end BMap

namespace DiffMap

variable {K V : Type} [LinearOrder K]

theorem genRecords_key {t : Timestamp} {kd : K × Option V × Option V}
    {r : (K × V) × Timestamp × Diff} (h : r ∈ genRecords t kd) :
    r.1.1 = kd.1 := by
  obtain ⟨k0, o, n⟩ := kd
  cases o <;> cases n <;> simp [genRecords] at h <;>
    first
      | (subst h; rfl)
      | (rcases h with h | h <;> (subst h; rfl))

theorem flatMap_genRecords_filter {d : List (K × Option V × Option V)}
    (hnd : (d.map Prod.fst).Nodup) (k : K) (t : Timestamp) :
    (d.flatMap (genRecords t)).filter (fun r => r.1.1 = k) =
      (match BMap.find? d k with
       | none => []
       | some pr => genRecords t (k, pr)) := by
  induction d with
  | nil => simp [BMap.find?]
  | cons kd tail ih =>
    simp only [List.map_cons, List.nodup_cons] at hnd
    obtain ⟨hknot, hndt⟩ := hnd
    simp only [List.flatMap_cons, List.filter_append]
    by_cases hk : kd.1 = k
    · have hhead : (genRecords t kd).filter (fun r => decide (r.1.1 = k)) =
          genRecords t kd := by
        rw [List.filter_eq_self]
        intro r hr
        simp [genRecords_key hr, hk]
      have htail : (tail.flatMap (genRecords t)).filter
          (fun r => decide (r.1.1 = k)) = [] := by
        rw [List.filter_eq_nil_iff]
        intro r hr
        obtain ⟨kd', hkd', hr'⟩ := List.mem_flatMap.mp hr
        have : r.1.1 = kd'.1 := genRecords_key hr'
        have hmem : kd'.1 ∈ tail.map Prod.fst := List.mem_map_of_mem Prod.fst hkd'
        have hne : kd'.1 ≠ k := by
          intro he
          apply hknot
          rw [hk, ← he]
          exact hmem
        simp [this, hne]
      rw [hhead, htail, List.append_nil]
      obtain ⟨k0, pr⟩ := kd
      cases hk
      simp [BMap.find?]
    · have hhead : (genRecords t kd).filter (fun r => decide (r.1.1 = k)) = [] := by
        rw [List.filter_eq_nil_iff]
        intro r hr
        simp [genRecords_key hr, hk]
      rw [hhead, List.nil_append, ih hndt]
      obtain ⟨k0, pr⟩ := kd
      simp only at hk
      simp [BMap.find?, hk]

/-- The per-key invariant maintained between `gen_diff` calls: a touched
key's transition holds the value at the last snapshot and the current
value; an untouched key's current value is its snapshot value. -/
def DeltaOK (m0 m : DiffMap K V) : Prop :=
  (∀ k, BMap.find? m.delta k = none →
    BMap.find? m.inner k = BMap.find? m0.inner k) ∧
  (∀ k o n, BMap.find? m.delta k = some (o, n) →
    o = BMap.find? m0.inner k ∧ n = BMap.find? m.inner k)

theorem deltaOK_refl (m0 : DiffMap K V) (h : m0.delta = []) : DeltaOK m0 m0 := by
  constructor
  · intro k _
    rfl
  · intro k o n hfind
    rw [h] at hfind
    simp [BMap.find?] at hfind

theorem deltaOK_applyOp {m0 m : DiffMap K V} (hOK : DeltaOK m0 m)
    (op : MapOp K V) : DeltaOK m0 (m.applyOp op) := by
  obtain ⟨hnone, hsome⟩ := hOK
  cases op with
  | ins k v =>
    have hmain : (m.applyOp (.ins k v)).inner = BMap.insert m.inner k v := rfl
    rcases hd : BMap.find? m.delta k with _ | ⟨o0, n0⟩
    · rcases hov : BMap.find? m.inner k with _ | ov
      all_goals
        have hdelta : (m.applyOp (.ins k v)).delta =
            BMap.insert m.delta k (BMap.find? m.inner k, some v) := by
          simp only [applyOp, insert, hd, hov]
        constructor
      case _ =>
        intro k' hfind
        by_cases hk : k' = k
        · subst hk
          rw [hdelta, BMap.find?_insert_self] at hfind
          cases hfind
        · rw [hdelta, BMap.find?_insert_ne _ _ _ _ hk] at hfind
          rw [hmain, BMap.find?_insert_ne _ _ _ _ hk]
          exact hnone k' hfind
      case _ =>
        intro k' o n hfind
        by_cases hk : k' = k
        · subst hk
          rw [hdelta, BMap.find?_insert_self] at hfind
          injection hfind with hfind
          injection hfind with ho hn
          subst ho
          subst hn
          rw [hmain, BMap.find?_insert_self]
          exact ⟨hnone k' hd, rfl⟩
        · rw [hdelta, BMap.find?_insert_ne _ _ _ _ hk] at hfind
          rw [hmain, BMap.find?_insert_ne _ _ _ _ hk]
          exact hsome k' o n hfind
      case _ =>
        intro k' hfind
        by_cases hk : k' = k
        · subst hk
          rw [hdelta, BMap.find?_insert_self] at hfind
          cases hfind
        · rw [hdelta, BMap.find?_insert_ne _ _ _ _ hk] at hfind
          rw [hmain, BMap.find?_insert_ne _ _ _ _ hk]
          exact hnone k' hfind
      case _ =>
        intro k' o n hfind
        by_cases hk : k' = k
        · subst hk
          rw [hdelta, BMap.find?_insert_self] at hfind
          injection hfind with hfind
          injection hfind with ho hn
          subst ho
          subst hn
          rw [hmain, BMap.find?_insert_self]
          exact ⟨hnone k' hd, rfl⟩
        · rw [hdelta, BMap.find?_insert_ne _ _ _ _ hk] at hfind
          rw [hmain, BMap.find?_insert_ne _ _ _ _ hk]
          exact hsome k' o n hfind
    · have hdelta : (m.applyOp (.ins k v)).delta =
          BMap.insert m.delta k (o0, some v) := by
        simp only [applyOp, insert, hd]
      constructor
      · intro k' hfind
        by_cases hk : k' = k
        · subst hk
          rw [hdelta, BMap.find?_insert_self] at hfind
          cases hfind
        · rw [hdelta, BMap.find?_insert_ne _ _ _ _ hk] at hfind
          rw [hmain, BMap.find?_insert_ne _ _ _ _ hk]
          exact hnone k' hfind
      · intro k' o n hfind
        by_cases hk : k' = k
        · subst hk
          rw [hdelta, BMap.find?_insert_self] at hfind
          injection hfind with hfind
          injection hfind with ho hn
          subst ho
          subst hn
          rw [hmain, BMap.find?_insert_self]
          exact ⟨(hsome k' o0 n0 hd).1, rfl⟩
        · rw [hdelta, BMap.find?_insert_ne _ _ _ _ hk] at hfind
          rw [hmain, BMap.find?_insert_ne _ _ _ _ hk]
          exact hsome k' o n hfind
  | del k =>
    have hmain : (m.applyOp (.del k)).inner = BMap.erase m.inner k := rfl
    rcases hd : BMap.find? m.delta k with _ | ⟨o0, n0⟩
    · rcases hov : BMap.find? m.inner k with _ | ov
      · have hdelta : (m.applyOp (.del k)).delta = m.delta := by
          simp only [applyOp, remove, hd, hov]
        constructor
        · intro k' hfind
          rw [hdelta] at hfind
          rw [hmain, BMap.find?_erase]
          by_cases hk : k' = k
          · subst hk
            rw [if_pos rfl, ← hnone k' hfind, hov]
          · rw [if_neg hk]
            exact hnone k' hfind
        · intro k' o n hfind
          rw [hdelta] at hfind
          by_cases hk : k' = k
          · subst hk
            rw [hd] at hfind
            cases hfind
          · rw [hmain, BMap.find?_erase, if_neg hk]
            exact hsome k' o n hfind
      · have hdelta : (m.applyOp (.del k)).delta =
            BMap.insert m.delta k (some ov, none) := by
          simp only [applyOp, remove, hd, hov]
        constructor
        · intro k' hfind
          by_cases hk : k' = k
          · subst hk
            rw [hdelta, BMap.find?_insert_self] at hfind
            cases hfind
          · rw [hdelta, BMap.find?_insert_ne _ _ _ _ hk] at hfind
            rw [hmain, BMap.find?_erase, if_neg hk]
            exact hnone k' hfind
        · intro k' o n hfind
          by_cases hk : k' = k
          · subst hk
            rw [hdelta, BMap.find?_insert_self] at hfind
            injection hfind with hfind
            injection hfind with ho hn
            subst ho
            subst hn
            rw [hmain, BMap.find?_erase, if_pos rfl]
            refine ⟨?_, rfl⟩
            rw [← hnone k' hd, hov]
          · rw [hdelta, BMap.find?_insert_ne _ _ _ _ hk] at hfind
            rw [hmain, BMap.find?_erase, if_neg hk]
            exact hsome k' o n hfind
    · have hdelta : (m.applyOp (.del k)).delta =
          BMap.insert m.delta k (o0, none) := by
        simp only [applyOp, remove, hd]
      constructor
      · intro k' hfind
        by_cases hk : k' = k
        · subst hk
          rw [hdelta, BMap.find?_insert_self] at hfind
          cases hfind
        · rw [hdelta, BMap.find?_insert_ne _ _ _ _ hk] at hfind
          rw [hmain, BMap.find?_erase, if_neg hk]
          exact hnone k' hfind
      · intro k' o n hfind
        by_cases hk : k' = k
        · subst hk
          rw [hdelta, BMap.find?_insert_self] at hfind
          injection hfind with hfind
          injection hfind with ho hn
          subst ho
          subst hn
          rw [hmain, BMap.find?_erase, if_pos rfl]
          exact ⟨(hsome k' o0 n0 hd).1, rfl⟩
        · rw [hdelta, BMap.find?_insert_ne _ _ _ _ hk] at hfind
          rw [hmain, BMap.find?_erase, if_neg hk]
          exact hsome k' o n hfind

theorem delta_WF_applyOp {m : DiffMap K V} (h : BMap.WF m.delta)
    (op : MapOp K V) : BMap.WF (m.applyOp op).delta := by
  cases op with
  | ins k v =>
    rcases hd : BMap.find? m.delta k with _ | d
    · rcases hov : BMap.find? m.inner k with _ | ov
      · have : (m.applyOp (.ins k v)).delta =
            BMap.insert m.delta k (none, some v) := by
          simp only [applyOp, insert, hd, hov]
        rw [this]
        exact BMap.WF_insert h k _
      · have : (m.applyOp (.ins k v)).delta =
            BMap.insert m.delta k (some ov, some v) := by
          simp only [applyOp, insert, hd, hov]
        rw [this]
        exact BMap.WF_insert h k _
    · have : (m.applyOp (.ins k v)).delta =
          BMap.insert m.delta k (d.1, some v) := by
        simp only [applyOp, insert, hd]
      rw [this]
      exact BMap.WF_insert h k _
  | del k =>
    rcases hd : BMap.find? m.delta k with _ | d
    · rcases hov : BMap.find? m.inner k with _ | ov
      · have : (m.applyOp (.del k)).delta = m.delta := by
          simp only [applyOp, remove, hd, hov]
        rw [this]
        exact h
      · have : (m.applyOp (.del k)).delta =
            BMap.insert m.delta k (some ov, none) := by
          simp only [applyOp, remove, hd, hov]
        rw [this]
        exact BMap.WF_insert h k _
    · have : (m.applyOp (.del k)).delta =
          BMap.insert m.delta k (d.1, none) := by
        simp only [applyOp, remove, hd]
      rw [this]
      exact BMap.WF_insert h k _

theorem deltaOK_applyOps {m0 m : DiffMap K V} (hOK : DeltaOK m0 m)
    (hWF : BMap.WF m.delta) (ops : List (MapOp K V)) :
    DeltaOK m0 (m.applyOps ops) ∧ BMap.WF (m.applyOps ops).delta := by
  induction ops generalizing m with
  | nil => exact ⟨hOK, hWF⟩
  | cons op t ih =>
    have h1 := deltaOK_applyOp hOK op
    have h2 := delta_WF_applyOp hWF op
    exact ih h1 h2

end DiffMap

/-- C6: starting from a freshly-drained `DiffMap`, any interleaving of
`insert` and `remove` calls retains for each touched key exactly the first
old value (the value at the last snapshot) and the latest new value (the
current value), and `gen_diff(t)` emits at most two records for the key:
`((k, first_old), t, −1)` if the key had a prior value, followed by
`((k, latest_new), t, +1)` if it currently has one — and afterwards the
buffer is empty. -/
theorem diffMap_transitions {K V : Type} [LinearOrder K] (m0 : DiffMap K V)
    (hδ : m0.delta = []) (ops : List (MapOp K V)) (k : K) (t : Timestamp) :
    (∀ o n, BMap.find? (m0.applyOps ops).delta k = some (o, n) →
        o = BMap.find? m0.inner k ∧
        n = BMap.find? (m0.applyOps ops).inner k) ∧
    (BMap.find? (m0.applyOps ops).delta k = none →
        BMap.find? (m0.applyOps ops).inner k = BMap.find? m0.inner k) ∧
    (((m0.applyOps ops).gen_diff t).1.filter (fun r => r.1.1 = k) =
      (match BMap.find? (m0.applyOps ops).delta k with
       | none => []
       | some pr => DiffMap.genRecords t (k, pr))) ∧
    ((m0.applyOps ops).gen_diff t).2.delta = [] := by
  have hWF0 : BMap.WF m0.delta := by rw [hδ]; exact List.Pairwise.nil
  obtain ⟨⟨hnone, hsome⟩, hWF⟩ :=
    DiffMap.deltaOK_applyOps (DiffMap.deltaOK_refl m0 hδ) hWF0 ops
  refine ⟨fun o n h => hsome k o n h, fun h => hnone k h, ?_, rfl⟩
  have hnd : ((m0.applyOps ops).delta.map Prod.fst).Nodup := by
    rw [BMap.WF] at hWF
    exact ((List.pairwise_map).mpr hWF).imp ne_of_lt
  exact DiffMap.flatMap_genRecords_filter hnd k t

/-- C6 witness: insert `1 ↦ 1`, remove it, insert `1 ↦ 2`; the drained
records for key 1 are exactly the two the claim predicts. -/
theorem diffMap_transitions_witness :
    (∀ o n, BMap.find?
          ((DiffMap.applyOps (K := ℤ) (V := ℤ) ⟨[], []⟩
            [.ins 1 1, .del 1, .ins 1 2]).delta) 1 = some (o, n) →
        o = BMap.find? (DiffMap.mk (K := ℤ) (V := ℤ) [] []).inner 1 ∧
        n = BMap.find? ((DiffMap.applyOps (K := ℤ) (V := ℤ) ⟨[], []⟩
            [.ins 1 1, .del 1, .ins 1 2]).inner) 1) ∧
    (BMap.find? ((DiffMap.applyOps (K := ℤ) (V := ℤ) ⟨[], []⟩
          [.ins 1 1, .del 1, .ins 1 2]).delta) 1 = none →
        BMap.find? ((DiffMap.applyOps (K := ℤ) (V := ℤ) ⟨[], []⟩
          [.ins 1 1, .del 1, .ins 1 2]).inner) 1 =
          BMap.find? (DiffMap.mk (K := ℤ) (V := ℤ) [] []).inner 1) ∧
    (((DiffMap.applyOps (K := ℤ) (V := ℤ) ⟨[], []⟩
          [.ins 1 1, .del 1, .ins 1 2]).gen_diff 7).1.filter
        (fun r => r.1.1 = 1) =
      (match BMap.find? ((DiffMap.applyOps (K := ℤ) (V := ℤ) ⟨[], []⟩
            [.ins 1 1, .del 1, .ins 1 2]).delta) 1 with
       | none => []
       | some pr => DiffMap.genRecords 7 (1, pr))) ∧
    ((DiffMap.applyOps (K := ℤ) (V := ℤ) ⟨[], []⟩
        [.ins 1 1, .del 1, .ins 1 2]).gen_diff 7).2.delta = [] :=
  diffMap_transitions ⟨[], []⟩ rfl [.ins 1 1, .del 1, .ins 1 2] 1 7

/-- Well-formedness of a temporal-filter spine: buckets sorted by time,
rows sorted inside each bucket (the `BTreeMap` invariants). -/
def TemporalFilterState.SpineWF (s : TemporalFilterState) : Prop :=
  BMap.WF s.spine ∧ ∀ e ∈ s.spine, BMap.WF e.2

instance (s : TemporalFilterState) : Decidable s.SpineWF := by
  unfold TemporalFilterState.SpineWF
  infer_instance

/-- On a key-sorted association list, splitting at a bound with
`takeWhile`/`dropWhile` (the `BTreeMap::split_off` behaviour) agrees with
filtering. -/
theorem takeWhile_eq_filter_of_sorted {K α : Type} [LinearOrder K]
    {l : List (K × α)} (hWF : BMap.WF l) (b : K) :
    l.takeWhile (fun e => e.1 < b) = l.filter (fun e => e.1 < b) ∧
    l.dropWhile (fun e => e.1 < b) = l.filter (fun e => ¬ e.1 < b) := by
  induction l with
  | nil => simp
  | cons q t ih =>
    rw [BMap.WF, List.pairwise_cons] at hWF
    obtain ⟨hhead, htail⟩ := hWF
    obtain ⟨ih1, ih2⟩ := ih htail
    by_cases h : q.1 < b
    · constructor
      · rw [List.takeWhile_cons, List.filter_cons]
        simp [h, ih1]
      · rw [List.dropWhile_cons, List.filter_cons]
        simp [h, ih2]
    · have hall : ∀ e ∈ t, ¬ e.1 < b := fun e he hlt => h ((hhead e he).trans hlt)
      have hnil : t.filter (fun e => decide (e.1 < b)) = [] :=
        List.filter_eq_nil_iff.mpr fun e he => by simpa using hall e he
      have hself : t.filter (fun e => decide ¬ e.1 < b) = t :=
        List.filter_eq_self.mpr fun e he => by simpa using hall e he
      constructor
      · rw [List.takeWhile_cons, List.filter_cons]
        simp [h, hnil]
      · rw [List.dropWhile_cons, List.filter_cons]
        simp [h]
        exact (List.filter_eq_self.mpr fun e he =>
          by simpa using not_lt.mp (hall e he)).symm

/-- Records of one bucket carry that bucket's timestamp. -/
theorem mem_bucketRecords {tr : Timestamp × List (Row × Diff)}
    {b : Row × Timestamp × Diff}
    (h : b ∈ tr.2.map (fun rd => (rd.1, tr.1, rd.2))) : b.2.1 = tr.1 := by
  obtain ⟨rd, _, rfl⟩ := List.mem_map.mp h
  rfl

/-- Flattening a well-formed spine yields records sorted by time, then by
row. -/
theorem pairwise_flatMap_buckets {l : List (Timestamp × List (Row × Diff))}
    (houter : BMap.WF l) (hinner : ∀ e ∈ l, BMap.WF e.2) :
    (l.flatMap fun tr => tr.2.map fun rd => (rd.1, tr.1, rd.2)).Pairwise
      (fun a b => a.2.1 < b.2.1 ∨ (a.2.1 = b.2.1 ∧ a.1 < b.1)) := by
  induction l with
  | nil => simp
  | cons q t ih =>
    rw [BMap.WF, List.pairwise_cons] at houter
    obtain ⟨hhead, htail⟩ := houter
    rw [List.flatMap_cons, List.pairwise_append]
    refine ⟨?_, ih htail (fun e he => hinner e (List.mem_cons_of_mem q he)), ?_⟩
    · have hq := hinner q (List.mem_cons_self q t)
      rw [List.pairwise_map]
      rw [BMap.WF] at hq
      exact hq.imp fun hlt => Or.inr ⟨rfl, hlt⟩
    · intro a ha b hb
      obtain ⟨tr, htr, hb'⟩ := List.mem_flatMap.mp hb
      have hat : a.2.1 = q.1 := mem_bucketRecords ha
      have hbt : b.2.1 = tr.1 := mem_bucketRecords hb'
      exact Or.inl (by rw [hat, hbt]; exact hhead tr htr)

/-- C5 counterexample: two rows appended in descending row order into the
same bucket come back out of `trunc_until_inclusive` in ascending row
order, not in insertion order as the claim states. -/
theorem temporal_filter_not_insertion_order :
    (TemporalFilterState.append_delta_row ⟨[]⟩
        [(⟨[Value.int64 2]⟩, 5, 1), (⟨[Value.int64 1]⟩, 5, 1)]).trunc_until_inclusive 5 =
      ([(⟨[Value.int64 1]⟩, 5, 1), (⟨[Value.int64 2]⟩, 5, 1)], ⟨[]⟩) ∧
    [(Row.mk [Value.int64 1], (5 : ℤ), (1 : ℤ)), (⟨[Value.int64 2]⟩, 5, 1)] ≠
      [(⟨[Value.int64 2]⟩, 5, 1), (⟨[Value.int64 1]⟩, 5, 1)] := by
  constructor
  · decide
  · decide

/-- C5 (amended): `trunc_until_inclusive(t)` returns and removes exactly
the entries with timestamp ≤ `t`, with buckets in ascending timestamp
order and, within each bucket, rows in ascending row order (the `BTreeMap`
iteration order) — not in first-append order. -/
theorem temporal_filter_trunc (s : TemporalFilterState) (hWF : s.SpineWF)
    (time : Timestamp) :
    (s.trunc_until_inclusive time).1 =
      ((s.spine.filter fun e => e.1 ≤ time).flatMap
        fun tr => tr.2.map fun rd => (rd.1, tr.1, rd.2)) ∧
    (s.trunc_until_inclusive time).2.spine =
      (s.spine.filter fun e => ¬ e.1 ≤ time) ∧
    (s.trunc_until_inclusive time).1.Pairwise
      (fun a b => a.2.1 < b.2.1 ∨ (a.2.1 = b.2.1 ∧ a.1 < b.1)) := by
  obtain ⟨houter, hinner⟩ := hWF
  obtain ⟨hsplit1, hsplit2⟩ := takeWhile_eq_filter_of_sorted houter (time + 1)
  have hpred : s.spine.filter (fun e => e.1 < time + 1) =
      s.spine.filter (fun e => e.1 ≤ time) := by
    apply List.filter_congr
    intro e _
    simp [Int.lt_add_one_iff]
  have hpredn : s.spine.filter (fun e => ¬ e.1 < time + 1) =
      s.spine.filter (fun e => ¬ e.1 ≤ time) := by
    apply List.filter_congr
    intro e _
    simp [Int.lt_add_one_iff]
  have h1 : (s.trunc_until_inclusive time).1 =
      ((s.spine.filter fun e => e.1 ≤ time).flatMap
        fun tr => tr.2.map fun rd => (rd.1, tr.1, rd.2)) := by
    show (s.spine.takeWhile fun e => e.1 < time + 1).flatMap _ = _
    rw [hsplit1, hpred]
  refine ⟨h1, ?_, ?_⟩
  · show s.spine.dropWhile _ = _
    rw [hsplit2, hpredn]
  · rw [h1]
    apply pairwise_flatMap_buckets
    · exact List.Pairwise.sublist (List.filter_sublist _) houter
    · intro e he
      exact hinner e (List.mem_of_mem_filter he)

/-- C5 witness: a two-bucket spine truncated at its first bucket. -/
theorem temporal_filter_trunc_witness :
    ((TemporalFilterState.mk
          [(1, [(⟨[Value.int64 1]⟩, 1), (⟨[Value.int64 2]⟩, 1)]),
           (2, [(⟨[Value.int64 1]⟩, 1)])]).trunc_until_inclusive 1).1 =
      (((TemporalFilterState.mk
          [(1, [(⟨[Value.int64 1]⟩, 1), (⟨[Value.int64 2]⟩, 1)]),
           (2, [(⟨[Value.int64 1]⟩, 1)])]).spine.filter
            fun e => e.1 ≤ 1).flatMap
        fun tr => tr.2.map fun rd => (rd.1, tr.1, rd.2)) ∧
    ((TemporalFilterState.mk
          [(1, [(⟨[Value.int64 1]⟩, 1), (⟨[Value.int64 2]⟩, 1)]),
           (2, [(⟨[Value.int64 1]⟩, 1)])]).trunc_until_inclusive 1).2.spine =
      ((TemporalFilterState.mk
          [(1, [(⟨[Value.int64 1]⟩, 1), (⟨[Value.int64 2]⟩, 1)]),
           (2, [(⟨[Value.int64 1]⟩, 1)])]).spine.filter
            fun e => ¬ e.1 ≤ 1) ∧
    ((TemporalFilterState.mk
          [(1, [(⟨[Value.int64 1]⟩, 1), (⟨[Value.int64 2]⟩, 1)]),
           (2, [(⟨[Value.int64 1]⟩, 1)])]).trunc_until_inclusive 1).1.Pairwise
      (fun a b => a.2.1 < b.2.1 ∨ (a.2.1 = b.2.1 ∧ a.1 < b.1)) :=
  temporal_filter_trunc
    (TemporalFilterState.mk
      [(1, [(⟨[Value.int64 1]⟩, 1), (⟨[Value.int64 2]⟩, 1)]),
       (2, [(⟨[Value.int64 1]⟩, 1)])])
    (by decide) 1

theorem BMap.find?_eq_some_of_mem {K V : Type} [LinearOrder K]
    {l : List (K × V)} (hWF : BMap.WF l) {t : K} {b : V}
    (hmem : (t, b) ∈ l) : BMap.find? l t = some b := by
  induction l with
  | nil => cases hmem
  | cons q r ih =>
    rw [BMap.WF, List.pairwise_cons] at hWF
    obtain ⟨hhead, htail⟩ := hWF
    rcases List.mem_cons.mp hmem with heq | hmem2
    · obtain ⟨k', v'⟩ := q
      injection heq with h1 h2
      subst h1
      subst h2
      simp [BMap.find?]
    · obtain ⟨k', v'⟩ := q
      have hne : k' ≠ t := ne_of_lt (hhead (t, b) hmem2)
      simp [BMap.find?, hne, ih htail hmem2]

theorem BMap.mem_of_find?_eq_some {K V : Type} [LinearOrder K]
    {l : List (K × V)} {t : K} {b : V}
    (h : BMap.find? l t = some b) : (t, b) ∈ l := by
  induction l with
  | nil => simp [BMap.find?] at h
  | cons q r ih =>
    obtain ⟨k', v'⟩ := q
    by_cases hk : k' = t
    · subst hk
      simp [BMap.find?] at h
      subst h
      exact List.mem_cons_self _ _
    · simp [BMap.find?, hk] at h
      exact List.mem_cons_of_mem _ (ih h)

theorem find?_foldl_erase {K V : Type} [LinearOrder K] (l : List K)
    (m : List (K × V)) (k : K) :
    BMap.find? (l.foldl (fun m k => BMap.erase m k) m) k =
      if k ∈ l then none else BMap.find? m k := by
  induction l generalizing m with
  | nil => simp
  | cons h t ih =>
    simp only [List.foldl_cons]
    rw [ih]
    by_cases hk : k ∈ t
    · simp [hk]
    · rw [if_neg hk, BMap.find?_erase]
      by_cases he : k = h
      · simp [he]
      · simp [List.mem_cons, he, hk]

/-- Buckets whose keys all report the bucket's own timestamp are pairwise
disjoint, so flattening a sorted bucket list yields no duplicates. -/
theorem nodup_flatMap_buckets {l : List (Timestamp × List Row)}
    (houter : BMap.WF l) (hin : ∀ e ∈ l, BSet.WF e.2)
    (f : Row → Except EvalError Timestamp)
    (hts : ∀ e ∈ l, ∀ k ∈ e.2, f k = .ok e.1) :
    (l.flatMap fun e => e.2).Nodup := by
  induction l with
  | nil => simp
  | cons q t ih
  =>
    rw [BMap.WF, List.pairwise_cons] at houter
    obtain ⟨hhead, htail⟩ := houter
    rw [List.flatMap_cons, List.nodup_append]
    refine ⟨?_, ih htail (fun e he => hin e (List.mem_cons_of_mem q he))
        (fun e he k hk => hts e (List.mem_cons_of_mem q he) k hk), ?_⟩
    · exact ((hin q (List.mem_cons_self q t)).imp ne_of_lt)
    · intro a ha hb
      obtain ⟨e, he, ha2⟩ := List.mem_flatMap.mp hb
      have h1 : f a = .ok q.1 := hts q (List.mem_cons_self q t) a ha
      have h2 : f a = .ok e.1 := hts e (List.mem_cons_of_mem q he) a ha2
      rw [h1] at h2
      injection h2 with h2
      exact absurd h2 (ne_of_lt (hhead e he))

/-- C4: with a TTL set and the event time `ts` extracted from the key,
`insert` and `remove` fail with `LateDataDiscarded` exactly when
`ts < current − TTL` (leaving the whole state untouched), and succeed at
the boundary `ts = current − TTL` and above. -/
theorem ekv_insert_remove_gate (s : ExpiringKeyValueState)
    (current ttl ts : Timestamp) (k v : Row)
    (httl : s.key_expiration_duration = some ttl)
    (hts : s.extract_event_ts k = .ok ts) :
    (ts < current - ttl →
      s.insert current k v =
        (.error (.lateDataDiscarded (current - ttl - ts).toNat), s) ∧
      s.remove current k =
        (.error (.lateDataDiscarded (current - ttl - ts).toNat), s)) ∧
    (current - ttl ≤ ts →
      (∃ r s', s.insert current k v = (.ok r, s')) ∧
      (∃ r s', s.remove current k = (.ok r, s'))) := by
  have hexp : s.get_expire_time current = some (current - ttl) := by
    simp [ExpiringKeyValueState.get_expire_time, httl]
  constructor
  · intro hlt
    constructor
    · simp only [ExpiringKeyValueState.insert, hts, hexp]
      rw [if_pos hlt]
    · simp only [ExpiringKeyValueState.remove, hts, hexp]
      rw [if_pos hlt]
  · intro hge
    have hnlt : ¬ ts < current - ttl := not_lt.mpr hge
    constructor
    · refine ⟨(s.insertRaw ts k v).1, (s.insertRaw ts k v).2, ?_⟩
      simp only [ExpiringKeyValueState.insert, hts, hexp]
      rw [if_neg hnlt]
    · refine ⟨(s.removeRaw ts k).1, (s.removeRaw ts k).2, ?_⟩
      simp only [ExpiringKeyValueState.remove, hts, hexp]
      rw [if_neg hnlt]

/-- C4 witness: TTL 5000, key-row event time 0, current time 5000: the
boundary `ts = current − TTL` is accepted. -/
theorem ekv_insert_remove_gate_witness :
    ((0 : ℤ) < 5000 - 5000 →
      (ExpiringKeyValueState.new (some 5000) (.column 0)).insert 5000
          ⟨[Value.int64 0]⟩ ⟨[]⟩ =
        (.error (.lateDataDiscarded ((5000 : ℤ) - 5000 - 0).toNat),
          ExpiringKeyValueState.new (some 5000) (.column 0)) ∧
      (ExpiringKeyValueState.new (some 5000) (.column 0)).remove 5000
          ⟨[Value.int64 0]⟩ =
        (.error (.lateDataDiscarded ((5000 : ℤ) - 5000 - 0).toNat),
          ExpiringKeyValueState.new (some 5000) (.column 0))) ∧
    ((5000 : ℤ) - 5000 ≤ 0 →
      (∃ r s', (ExpiringKeyValueState.new (some 5000) (.column 0)).insert 5000
          ⟨[Value.int64 0]⟩ ⟨[]⟩ = (.ok r, s')) ∧
      (∃ r s', (ExpiringKeyValueState.new (some 5000) (.column 0)).remove 5000
          ⟨[Value.int64 0]⟩ = (.ok r, s'))) :=
  ekv_insert_remove_gate (ExpiringKeyValueState.new (some 5000) (.column 0))
    5000 5000 0 ⟨[Value.int64 0]⟩ ⟨[]⟩ rfl rfl

/-- C3 counterexample: a key whose event time equals exactly
`current − TTL` is NOT removed by `trunc_expired` (the comparison is
strict), though the claim's `≤` would remove it; the repo's own test
(`trunc_expired(5000) == 0`) agrees with the code. -/
theorem trunc_expired_boundary_kept :
    (((ExpiringKeyValueState.new (some 5000) (.column 0)).insert 0
        ⟨[Value.int64 0]⟩ ⟨[]⟩).2.extract_event_ts ⟨[Value.int64 0]⟩ = .ok 0) ∧
    ((0 : ℤ) ≤ 5000 - 5000) ∧
    ((((ExpiringKeyValueState.new (some 5000) (.column 0)).insert 0
        ⟨[Value.int64 0]⟩ ⟨[]⟩).2.trunc_expired 5000).1 = 0) ∧
    (BMap.find? ((((ExpiringKeyValueState.new (some 5000) (.column 0)).insert 0
        ⟨[Value.int64 0]⟩ ⟨[]⟩).2.trunc_expired 5000).2.inner.inner)
      ⟨[Value.int64 0]⟩ = some ⟨[]⟩) := by
  refine ⟨rfl, by decide, by decide, by decide⟩

/-- Whether a key's extracted event time falls strictly before
`cur − ttl`, i.e. whether `trunc_expired(cur)` removes it. -/
def ExpiringKeyValueState.expiredKey (s : ExpiringKeyValueState)
    (cur ttl : Timestamp) (k : Row) : Bool :=
  match s.extract_event_ts k with
  | .ok ts => ts < cur - ttl
  | .error _ => false

/-- The invariant `insert`/`remove` maintain between the kv map and its
reverse time index: every indexed key extracts to its bucket's time and is
present in the map, every present key is indexed under its event time, and
all three `BTreeMap`/`BTreeSet` structures are sorted. -/
def ExpiringKeyValueState.InvWF (s : ExpiringKeyValueState) : Prop :=
  BMap.WF s.time2key ∧
  (∀ e ∈ s.time2key, BSet.WF e.2) ∧
  (∀ t bkt, BMap.find? s.time2key t = some bkt → ∀ k ∈ bkt,
      s.extract_event_ts k = .ok t ∧ (BMap.find? s.inner.inner k).isSome = true) ∧
  (∀ k v, BMap.find? s.inner.inner k = some v →
      ∃ t bkt, s.extract_event_ts k = .ok t ∧
        BMap.find? s.time2key t = some bkt ∧ k ∈ bkt) ∧
  BMap.WF s.inner.inner

/-- C3 (amended): with a TTL set and a well-formed state,
`trunc_expired(cur)` removes from the inner map exactly the keys whose
extracted event time is STRICTLY below `cur − TTL` (the boundary key stays),
does so without touching the delta buffer, and returns the number of keys
removed. -/
theorem trunc_expired_exact (s : ExpiringKeyValueState) (cur ttl : Timestamp)
    (httl : s.key_expiration_duration = some ttl) (hWF : s.InvWF) :
    (∀ k, BMap.find? (s.trunc_expired cur).2.inner.inner k =
        if s.expiredKey cur ttl k then none else BMap.find? s.inner.inner k) ∧
    (s.trunc_expired cur).2.inner.delta = s.inner.delta ∧
    (s.trunc_expired cur).1 =
      (s.inner.inner.filter fun p => s.expiredKey cur ttl p.1).length := by
  obtain ⟨hWFt, hWFb, hfwd, hbwd, hWFi⟩ := hWF
  have hexp : s.get_expire_time cur = some (cur - ttl) := by
    simp [ExpiringKeyValueState.get_expire_time, httl]
  have hbeforefil : s.time2key.takeWhile (fun e => e.1 < cur - ttl) =
      s.time2key.filter (fun e => e.1 < cur - ttl) :=
    (takeWhile_eq_filter_of_sorted hWFt (cur - ttl)).1
  have h2 : (s.trunc_expired cur).2.inner.inner =
      ((s.time2key.takeWhile fun e => e.1 < cur - ttl).flatMap fun e => e.2).foldl
        (fun m k => BMap.erase m k) s.inner.inner := by
    simp only [ExpiringKeyValueState.trunc_expired, hexp]
  have h1 : (s.trunc_expired cur).1 =
      ((s.time2key.takeWhile fun e => e.1 < cur - ttl).flatMap fun e => e.2).length := by
    simp only [ExpiringKeyValueState.trunc_expired, hexp]
  have hdelta : (s.trunc_expired cur).2.inner.delta = s.inner.delta := by
    simp only [ExpiringKeyValueState.trunc_expired, hexp]
  have hsub : ∀ e ∈ s.time2key.takeWhile (fun e => e.1 < cur - ttl),
      e ∈ s.time2key := fun e he => (List.takeWhile_sublist _).subset he
  have hmem : ∀ k,
      k ∈ (s.time2key.takeWhile fun e => e.1 < cur - ttl).flatMap (fun e => e.2) ↔
        (s.expiredKey cur ttl k = true ∧ ∃ v, BMap.find? s.inner.inner k = some v) := by
    intro k
    constructor
    · intro hk
      obtain ⟨e, he, hke⟩ := List.mem_flatMap.mp hk
      have hfe : BMap.find? s.time2key e.1 = some e.2 :=
        BMap.find?_eq_some_of_mem hWFt (by exact hsub e he)
      have hf := hfwd e.1 e.2 hfe k hke
      have hlt : e.1 < cur - ttl := by
        rw [hbeforefil] at he
        simpa using (List.mem_filter.mp he).2
      refine ⟨?_, Option.isSome_iff_exists.mp hf.2⟩
      simp [ExpiringKeyValueState.expiredKey, hf.1, hlt]
    · rintro ⟨hx, v, hv⟩
      obtain ⟨t0, bkt, hext, hfind, hkb⟩ := hbwd k v hv
      have ht0 : t0 < cur - ttl := by
        simpa [ExpiringKeyValueState.expiredKey, hext] using hx
      have hmemT : (t0, bkt) ∈ s.time2key := BMap.mem_of_find?_eq_some hfind
      have hmemB : (t0, bkt) ∈ s.time2key.takeWhile (fun e => e.1 < cur - ttl) := by
        rw [hbeforefil]
        exact List.mem_filter.mpr ⟨hmemT, by simpa using ht0⟩
      exact List.mem_flatMap.mpr ⟨(t0, bkt), hmemB, hkb⟩
  refine ⟨?_, hdelta, ?_⟩
  · intro k
    rw [h2, find?_foldl_erase]
    by_cases hk : k ∈ (s.time2key.takeWhile fun e => e.1 < cur - ttl).flatMap (fun e => e.2)
    · rw [if_pos hk]
      obtain ⟨hx, -⟩ := (hmem k).mp hk
      rw [if_pos hx]
    · rw [if_neg hk]
      by_cases hx : s.expiredKey cur ttl k = true
      · rw [if_pos hx]
        cases hf : BMap.find? s.inner.inner k with
        | none => rfl
        | some v => exact absurd ((hmem k).mpr ⟨hx, v, hf⟩) hk
      · rw [if_neg hx]
  · rw [h1]
    have hWFbef : BMap.WF (s.time2key.takeWhile fun e => e.1 < cur - ttl) :=
      List.Pairwise.sublist (List.takeWhile_sublist _) hWFt
    have hnodup : ((s.time2key.takeWhile fun e => e.1 < cur - ttl).flatMap
        (fun e => e.2)).Nodup :=
      nodup_flatMap_buckets hWFbef (fun e he => hWFb e (hsub e he))
        s.extract_event_ts
        (fun e he k hk =>
          (hfwd e.1 e.2 (BMap.find?_eq_some_of_mem hWFt (by exact hsub e he)) k hk).1)
    have hkeys : ((s.inner.inner.filter fun p => s.expiredKey cur ttl p.1).map
        Prod.fst).Nodup := by
      have hsub2 : (s.inner.inner.filter fun p => s.expiredKey cur ttl p.1).Sublist
          s.inner.inner := List.filter_sublist _
      exact ((List.pairwise_map).mpr (List.Pairwise.sublist hsub2 hWFi)).imp ne_of_lt
    have hsame : ∀ x,
        x ∈ (s.time2key.takeWhile fun e => e.1 < cur - ttl).flatMap (fun e => e.2) ↔
          x ∈ (s.inner.inner.filter fun p => s.expiredKey cur ttl p.1).map Prod.fst := by
      intro x
      rw [hmem x]
      constructor
      · rintro ⟨hx, v, hv⟩
        exact List.mem_map.mpr ⟨(x, v),
          List.mem_filter.mpr ⟨BMap.mem_of_find?_eq_some hv, by simpa using hx⟩, rfl⟩
      · intro hx
        obtain ⟨p, hp, rfl⟩ := List.mem_map.mp hx
        obtain ⟨hpmem, hppred⟩ := List.mem_filter.mp hp
        exact ⟨by simpa using hppred, p.2,
          BMap.find?_eq_some_of_mem hWFi (by exact hpmem)⟩
    have hlen : ((s.time2key.takeWhile fun e => e.1 < cur - ttl).flatMap
        (fun e => e.2)).length =
        ((s.inner.inner.filter fun p => s.expiredKey cur ttl p.1).map
          Prod.fst).length := by
      rw [← List.toFinset_card_of_nodup hnodup, ← List.toFinset_card_of_nodup hkeys]
      congr 1
      ext x
      simp only [List.mem_toFinset]
      exact hsame x
    rw [hlen, List.length_map]

/-- C3 witness: the empty expiring state with TTL 5000 satisfies the
invariant; truncation removes nothing and counts zero. -/
theorem trunc_expired_exact_witness :
    (∀ k, BMap.find?
        (((ExpiringKeyValueState.new (some 5000) (.column 0)).trunc_expired 9999).2.inner.inner) k =
      if (ExpiringKeyValueState.new (some 5000) (.column 0)).expiredKey 9999 5000 k then none
      else BMap.find? (ExpiringKeyValueState.new (some 5000) (.column 0)).inner.inner k) ∧
    ((ExpiringKeyValueState.new (some 5000) (.column 0)).trunc_expired 9999).2.inner.delta =
      (ExpiringKeyValueState.new (some 5000) (.column 0)).inner.delta ∧
    ((ExpiringKeyValueState.new (some 5000) (.column 0)).trunc_expired 9999).1 =
      ((ExpiringKeyValueState.new (some 5000) (.column 0)).inner.inner.filter
        fun p => (ExpiringKeyValueState.new (some 5000) (.column 0)).expiredKey 9999 5000 p.1).length :=
  trunc_expired_exact (ExpiringKeyValueState.new (some 5000) (.column 0)) 9999 5000 rfl
    ⟨List.Pairwise.nil, by intro a h; simp [ExpiringKeyValueState.new] at h,
      by intro t bkt h; simp [BMap.find?] at h,
      by intro k v h; simp [BMap.find?] at h,
      List.Pairwise.nil⟩

/-- Folding digits most-significant-first computes the positional value. -/
theorem foldl_reverse_digits (b : ℕ) (D : List ℕ) (acc : ℕ) :
    D.reverse.foldl (fun a d => a * b + d) acc =
      acc * b ^ D.length + Nat.ofDigits b D := by
  induction D generalizing acc with
  | nil => simp [Nat.ofDigits_nil]
  | cons d D ih =>
    rw [List.reverse_cons, List.foldl_append, List.foldl_cons, List.foldl_nil,
      ih, Nat.ofDigits_cons, List.length_cons, pow_succ]
    ring

theorem hexDigitVal_hexDigitChar (d : ℕ) (h : d < 16) :
    isHexDigitVal (hexDigitChar d) = some d := by
  unfold hexDigitChar isHexDigitVal
  by_cases h10 : d < 10
  · rw [if_pos h10, if_pos (by omega)]
    congr 1
    omega
  · have ha : ¬(48 ≤ 87 + d ∧ 87 + d ≤ 57) := by
      intro hcon
      obtain ⟨ha1, ha2⟩ := hcon
      omega
    have hb : 97 ≤ 87 + d ∧ 87 + d ≤ 102 := ⟨by omega, by omega⟩
    rw [if_neg h10, if_neg ha, if_pos hb]
    congr 1
    omega

theorem hexDigitChar_ne_rbrace (d : ℕ) (h : d < 16) : hexDigitChar d ≠ 125 := by
  unfold hexDigitChar
  split_ifs <;> omega

theorem parseHexBody_digits (ds : List ℕ) (tail : List ℕ) (acc : ℕ)
    (h : ∀ d ∈ ds, d < 16) :
    parseHexBody (ds.map hexDigitChar ++ tail) acc =
      parseHexBody tail (ds.foldl (fun a d => a * 16 + d) acc) := by
  induction ds generalizing acc with
  | nil => simp
  | cons d t ih =>
    have hd : d < 16 := h d (List.mem_cons_self _ _)
    simp only [List.map_cons, List.cons_append, List.foldl_cons]
    rw [parseHexBody, if_neg (hexDigitChar_ne_rbrace d hd),
      hexDigitVal_hexDigitChar d hd]
    exact ih (acc * 16 + d) (fun x hx => h x (List.mem_cons_of_mem d hx))

theorem parseHexBody_hexRepr (n : ℕ) (r : List ℕ) :
    parseHexBody (hexRepr n ++ 125 :: r) 0 = some (n, r) := by
  by_cases h0 : n = 0
  · subst h0
    rfl
  · unfold hexRepr
    rw [if_neg h0, ← List.map_reverse,
      parseHexBody_digits _ _ _
        (fun d hd => Nat.digits_lt_base (by norm_num) (List.mem_reverse.mp hd)),
      foldl_reverse_digits]
    simp only [zero_mul, zero_add, Nat.ofDigits_digits]
    rfl

theorem parseDecAux_digits (ds : List ℕ) (acc : ℕ) (h : ∀ d ∈ ds, d < 10) :
    parseDecAux (ds.map fun d => 48 + d) acc =
      some (ds.foldl (fun a d => a * 10 + d) acc) := by
  induction ds generalizing acc with
  | nil => rfl
  | cons d t ih =>
    have hd : d < 10 := h d (List.mem_cons_self _ _)
    simp only [List.map_cons, List.foldl_cons]
    rw [parseDecAux, show decDigitVal (48 + d) = some d by
      unfold decDigitVal
      rw [if_pos (by omega)]
      congr 1
      omega]
    exact ih (acc * 10 + d) (fun x hx => h x (List.mem_cons_of_mem d hx))

theorem parseU32_decRepr (n : ℕ) (h : n < 2 ^ 32) :
    parseU32 (decRepr n) = some n := by
  by_cases h0 : n = 0
  · subst h0
    rfl
  · have hne : decRepr n ≠ [] := by
      unfold decRepr
      rw [if_neg h0]
      simp [Nat.digits_ne_nil_iff_ne_zero.mpr h0]
    unfold parseU32
    rw [if_neg hne]
    unfold decRepr
    rw [if_neg h0, ← List.map_reverse,
      parseDecAux_digits _ _
        (fun d hd => Nat.digits_lt_base (by norm_num) (List.mem_reverse.mp hd)),
      foldl_reverse_digits]
    simp only [zero_mul, zero_add, Nat.ofDigits_digits]
    rw [if_pos h]

theorem escapeChar_ne_nil (c : ℕ) : escapeChar c ≠ [] := by
  unfold escapeChar
  split_ifs <;> simp

theorem unescStep_escapeChar (c : ℕ) (hc : ValidScalar c) (r : List ℕ) :
    unescStep (escapeChar c ++ r) = some (c, r) := by
  unfold escapeChar
  split_ifs with h1 h2 h3 h4 h5 h6 h7
  · subst h1; rfl
  · subst h2; rfl
  · subst h3; rfl
  · subst h4; rfl
  · subst h5; rfl
  · subst h6; rfl
  · show unescStep (c :: r) = some (c, r)
    rw [show unescStep (c :: r) =
        if c = 92 then
          (match r with
           | [] => none
           | e :: rest2 => unescEsc e rest2)
        else some (c, r) from rfl]
    rw [if_neg h4]
  · have hassoc : ([92, 117, 123] ++ hexRepr c ++ [125]) ++ r =
        92 :: 117 :: 123 :: (hexRepr c ++ 125 :: r) := by simp
    rw [hassoc]
    have hstep : unescStep (92 :: 117 :: 123 :: (hexRepr c ++ 125 :: r)) =
        unescU (123 :: (hexRepr c ++ 125 :: r)) := rfl
    rw [hstep]
    rw [show unescU (123 :: (hexRepr c ++ 125 :: r)) =
        (match parseHexBody (hexRepr c ++ 125 :: r) 0 with
         | some (n, rest4) => if ValidScalar n then some (n, rest4) else none
         | none => none) from rfl]
    rw [parseHexBody_hexRepr]
    show (if ValidScalar c then some (c, r) else none) = some (c, r)
    rw [if_pos hc]

theorem unescape_cons_of_step {l : List ℕ} {c : ℕ} {r : List ℕ}
    (h : unescStep l = some (c, r)) :
    unescape l = (unescape r).map (c :: ·) := by
  cases l with
  | nil => simp [unescStep] at h
  | cons a as =>
    rw [unescape]
    split
    · rename_i c' rest' heq
      rw [h] at heq
      injection heq with heq
      injection heq with heq1 heq2
      subst heq1
      subst heq2
      rfl
    · rename_i heq
      rw [h] at heq
      cases heq

/-- Unescaping inverts `escape_default` character by character. -/
theorem unescape_escapeDefault_append (s : List ℕ)
    (hs : ∀ c ∈ s, ValidScalar c) (r : List ℕ) :
    unescape (escapeDefault s ++ r) = (unescape r).map (s ++ ·) := by
  induction s with
  | nil =>
    simp only [escapeDefault, List.flatMap_nil, List.nil_append]
    cases unescape r <;> simp
  | cons c t ih =>
    have hc : ValidScalar c := hs c (List.mem_cons_self _ _)
    simp only [escapeDefault, List.flatMap_cons, List.append_assoc]
    rw [unescape_cons_of_step (unescStep_escapeChar c hc _)]
    rw [show t.flatMap escapeChar ++ r = escapeDefault t ++ r from rfl]
    rw [ih (fun x hx => hs x (List.mem_cons_of_mem c hx))]
    cases unescape r <;> simp

theorem unescape_escapeDefault (s : List ℕ) (hs : ∀ c ∈ s, ValidScalar c) :
    unescape (escapeDefault s) = some s := by
  have := unescape_escapeDefault_append s hs []
  simpa [unescape] using this

/-- C7: decoding the encoding of an error-info header recovers exactly the
original `(code, msg, stack)` triple, provided the code fits in `u32` and
the message and stack frames are made of Unicode scalar values (as Rust
strings are). -/
theorem errorInfoHeader_roundtrip (h : ErrorInfoHeader)
    (hcode : h.code < 2 ^ 32)
    (hmsg : ∀ c ∈ h.msg, ValidScalar c)
    (hstack : ∀ f ∈ h.stack_errors, ∀ c ∈ f, ValidScalar c) :
    ErrorInfoHeader.decode (ErrorInfoHeader.encode h) = some h := by
  obtain ⟨code, msg, stack⟩ := h
  simp only [ErrorInfoHeader.encode, ErrorInfoHeader.decode]
  rw [parseU32_decRepr code hcode]
  have hstackOK : (stack.map escapeDefault).mapM unescape = some stack := by
    clear hmsg hcode
    induction stack with
    | nil => rfl
    | cons f t ih =>
      simp only [List.map_cons, List.mapM_cons]
      rw [unescape_escapeDefault f (hstack f (List.mem_cons_self _ _)),
        ih (fun g hg => hstack g (List.mem_cons_of_mem f hg))]
      rfl
  rw [hstackOK, unescape_escapeDefault msg hmsg]
  rfl

/-- C7 witness: code 1003, message `"test"`, one stack frame `"0"`. -/
theorem errorInfoHeader_roundtrip_witness :
    ErrorInfoHeader.decode (ErrorInfoHeader.encode
        ⟨1003, [116, 101, 115, 116], [[48]]⟩) =
      some ⟨1003, [116, 101, 115, 116], [[48]]⟩ :=
  errorInfoHeader_roundtrip ⟨1003, [116, 101, 115, 116], [[48]]⟩
    (by decide) (by decide) (by decide)

end Greptime
